import Mathlib

/-!
Verification of the keyword-extractor program (`keyword_extractor.py`).

Text is modelled as `List Char` (the ASCII fragment of Python's `str`
semantics).  Regex-based operations of the source are embedded as explicit
character-list scanners that mirror the behaviour of the Python `re`
functions on the patterns actually used by the program.
-/

namespace KeywordExtractor

/-- Python strings, modelled as lists of characters. -/
abbrev Str := List Char

/-! ## Character classes -/

/-- ASCII word character, the `\w` class of the regexes in the source
(`[A-Za-z0-9_]` on the ASCII fragment). -/
def isWordChar (c : Char) : Bool := c.isAlphanum || c == '_'

/-- ASCII lowercasing, the effect of `re.IGNORECASE` comparison and of
`str.lower()` on the ASCII fragment. -/
def toLow (c : Char) : Char :=
  match c with
  | 'A' => 'a' | 'B' => 'b' | 'C' => 'c' | 'D' => 'd' | 'E' => 'e'
  | 'F' => 'f' | 'G' => 'g' | 'H' => 'h' | 'I' => 'i' | 'J' => 'j'
  | 'K' => 'k' | 'L' => 'l' | 'M' => 'm' | 'N' => 'n' | 'O' => 'o'
  | 'P' => 'p' | 'Q' => 'q' | 'R' => 'r' | 'S' => 's' | 'T' => 't'
  | 'U' => 'u' | 'V' => 'v' | 'W' => 'w' | 'X' => 'x' | 'Y' => 'y'
  | 'Z' => 'z'
  | c => c

/-- Python whitespace, the `\s` class (ASCII fragment):
space, tab, newline, carriage return, vertical tab, form feed. -/
def isPySpace (c : Char) : Bool :=
  c == ' ' || c == '\t' || c == '\n' || c == '\r' || c == '\x0b' || c == '\x0c'

/-- Sentence-ending punctuation, the `[.!?]` class of the PDF splitter. -/
def isSentEnd (c : Char) : Bool := c == '.' || c == '!' || c == '?'

/-- Keyword separator, the `[\s,]` class of the keyword tokenizer. -/
def isTokSep (c : Char) : Bool := isPySpace c || c == ','

/-! ## Python string helpers -/

/-- Python `str.strip()` (ASCII whitespace fragment). -/
def pyStrip (l : Str) : Str :=
  ((l.dropWhile isPySpace).reverse.dropWhile isPySpace).reverse

/-- Python `str.lower()` (ASCII fragment). -/
def pyLower (l : Str) : Str := l.map toLow

/-- Python `sep.join(items)`. -/
def joinSep (sep : Str) : List Str → Str
  | [] => []
  | [x] => x
  | x :: xs => x ++ sep ++ joinSep sep xs

/-! ## Whole-word regex matching

The source builds the pattern `r"\b" + re.escape(kw) + r"\b"` and runs
`re.search` with `re.IGNORECASE`.  Because `re.escape` makes the keyword a
literal, a match at a position is: the keyword is a case-insensitive prefix
of the remaining text, and a `\b` word boundary holds on both sides.  A
`\b` boundary holds at a position iff exactly one of the two surrounding
characters is a word character (positions outside the string count as
non-word). -/

/-- Wordness of the character before / after a position (`none` = outside
the string, which `\b` treats as non-word). -/
def isWordOpt : Option Char → Bool
  | none => false
  | some c => isWordChar c

/-- Case-insensitive literal prefix test: the keyword matches the start of
the text under `re.IGNORECASE`. -/
def ciStartsWith : Str → Str → Bool
  | [], _ => true
  | _ :: _, [] => false
  | k :: ks, t :: ts => (toLow k == toLow t) && ciStartsWith ks ts

/-- A match of `\b kw \b` starting exactly at the head of `text`, where
`prev` is the character just before that position in the whole string. -/
def matchWordAt (kw text : Str) (prev : Option Char) : Bool :=
  ciStartsWith kw text &&
  (isWordOpt prev != isWordOpt text.head?) &&
  (isWordOpt (text.take kw.length).getLast? != isWordOpt (text.drop kw.length).head?)

/-- `re.search` of `\b kw \b` over the text: try a match at every position
from left to right. -/
def searchFrom (kw : Str) (prev : Option Char) : Str → Bool
  | [] => matchWordAt kw [] prev
  | c :: rest => matchWordAt kw (c :: rest) prev || searchFrom kw (some c) rest

/-- `paragraph_matches` from the source: any non-empty keyword found in the
paragraph as a case-insensitive whole-word match. -/
def paragraph_matches (paragraph : Str) (keywords : List Str) : Bool :=
  keywords.any fun kw => !kw.isEmpty && searchFrom kw none paragraph

/-! ## `bold_keywords`

`re.sub` with pattern `\b kw \b` and replacement `*match*`: scan left to
right, wrap each leftmost non-overlapping match, continue after the match.
The `kw ≠ []` guard in the condition mirrors the `if not kw: continue`
guard of the caller (the scanner is only reached for non-empty keywords). -/

def subScan (kw : Str) (prev : Option Char) (text : Str) : Str :=
  match text with
  | [] => []
  | c :: rest =>
    if h : kw ≠ [] ∧ matchWordAt kw (c :: rest) prev = true then
      '*' :: (c :: rest).take kw.length ++
        '*' :: subScan kw ((c :: rest).take kw.length).getLast? ((c :: rest).drop kw.length)
    else
      c :: subScan kw (some c) rest
termination_by text.length
decreasing_by
  · simp only [List.length_drop, List.length_cons]
    have hk : 0 < kw.length := List.length_pos.mpr h.1
    omega
  · simp [Nat.lt_succ_self]

/-- `bold_keywords` from the source: apply the substitution for each
keyword in order, skipping empty keywords. -/
def bold_keywords (paragraph : Str) (keywords : List Str) : Str :=
  keywords.foldl (fun par kw => if kw.isEmpty then par else subScan kw none par) paragraph

/-! ## Result formatting -/

/-- `build_result_text_with_sources` from the source. -/
def build_result_text_with_sources (matching_paragraphs : List (Str × Str))
    (keywords : List Str) : Str :=
  joinSep ("\n---\n".data)
    (matching_paragraphs.map fun sp =>
      ("**Źródło: ".data) ++ sp.1 ++ ("**\n\n".data) ++
        bold_keywords sp.2 keywords ++ ("\n".data))

/-! ## Exporter (`save_as_docx`)

`save_as_docx` first runs `re.sub(r"\*\*(.*?)\*\*", r"\1", text)`: each
leftmost occurrence of `**`, followed by a shortest run of non-newline
characters, followed by `**`, is replaced by the inner run.  Then the text
is split on `"\n\n"` and each segment with non-empty `strip()` is added
(stripped) as one document paragraph.  The DOCX file format itself is an
external collaborator; the model returns the ordered list of paragraph
texts the produced document contains. -/

/-- Find the shortest `(.*?)\*\*` continuation: the characters up to the
first `**` on the current line, and the rest after that `**` (the rest is
returned together with a length bound used for termination). -/
def findClose : (l : Str) → Option (Str × {r : Str // r.length ≤ l.length})
  | '*' :: '*' :: rest => some ([], ⟨rest, by simp; omega⟩)
  | '\n' :: _ => none
  | c :: rest =>
    match findClose rest with
    | some (inner, ⟨r, hr⟩) => some (c :: inner, ⟨r, by simp; omega⟩)
    | none => none
  | [] => none

/-- `re.sub(r"\*\*(.*?)\*\*", r"\1", text)`: scan left to right; at a `**`
with a closing `**` on the same line, emit the inner text and continue
after the match; otherwise copy the character. -/
def stripBold (text : Str) : Str :=
  match text with
  | [] => []
  | '*' :: '*' :: rest =>
    match findClose rest with
    | some (inner, ⟨r, hr⟩) => inner ++ stripBold r
    | none => '*' :: '*' :: stripBold rest
  | c :: rest => c :: stripBold rest
termination_by text.length
decreasing_by
  · simp; omega
  · simp; omega
  · simp [Nat.lt_succ_self]

/-- Python `"\n\n".split` applied by `save_as_docx`: split the text at each
leftmost non-overlapping occurrence of two consecutive newlines. -/
def splitDD (text : Str) : List Str :=
  match text with
  | [] => [[]]
  | '\n' :: '\n' :: rest => [] :: splitDD rest
  | c :: rest =>
    match splitDD rest with
    | s :: ss => (c :: s) :: ss
    | [] => [[c]]

/-- The body of the export loop: a segment is kept, stripped, iff its
stripped form is non-empty (`if paragraph.strip(): add_paragraph(...)`). -/
def keepStripped (paragraph : Str) : Option Str :=
  let s := pyStrip paragraph
  if s.isEmpty then none else some s

/-- `save_as_docx` from the source, modelled as the list of paragraph texts
of the document it writes. -/
def save_as_docx (text : Str) : List Str :=
  (splitDD (stripBold text)).filterMap keepStripped

/-! ## Save-path normalization (`on_save_result`) -/

/-- Python `str.rstrip(".")`: remove trailing dots. -/
def rstripDot (l : Str) : Str := (l.reverse.dropWhile (· == '.')).reverse

/-- The path normalization of `on_save_result`: if the chosen path does not
end with `.docx` case-insensitively, strip trailing dots and append
`.docx`; otherwise keep the path. -/
def normalizeSavePath (path : Str) : Str :=
  if (".docx".data).isSuffixOf (pyLower path) then path
  else rstripDot path ++ (".docx".data)

/-- `on_save_result` path handling: `None` or an empty path aborts the
save; otherwise the normalized path is written to. -/
def on_save_result_path (p : Option Str) : Option Str :=
  match p with
  | none => none
  | some path => if path.isEmpty then none else some (normalizeSavePath path)

/-! ## PDF text extraction (`extract_text_from_pdf_bytes`)

`page.extract_text()` is the external PDF collaborator; a PDF is modelled
as the list of raw page texts it yields.  Each page text is processed by
`re.sub(r"-\n", "")`, `re.sub(r"\n+", " ")`, `re.sub(r"\s{2,}", " ")`,
then split by `re.split(r"(?<=[.!?])\s+", ...)`, stripped and filtered. -/

/-- `re.sub(r"-\n", "")`: delete each hyphen-newline pair, left to right. -/
def subHyph : Str → Str
  | '-' :: '\n' :: rest => subHyph rest
  | c :: rest => c :: subHyph rest
  | [] => []

/-- `re.sub(r"\n+", " ")`: replace each maximal run of newlines by one
space. -/
def subNL (text : Str) : Str :=
  match text with
  | [] => []
  | c :: rest =>
    if c == '\n' then ' ' :: subNL (rest.dropWhile (· == '\n'))
    else c :: subNL rest
termination_by text.length
decreasing_by
  · have h1 : (rest.dropWhile (fun c => c == '\n')).Sublist rest := List.dropWhile_sublist _
    have := h1.length_le
    simp; omega
  · simp [Nat.lt_succ_self]

/-- Head-of-list whitespace test (used to detect a `\s{2,}` match). -/
def headIsWS : Str → Bool
  | [] => false
  | d :: _ => isPySpace d

/-- `re.sub(r"\s{2,}", " ")`: replace each maximal run of at least two
whitespace characters by one space; a lone whitespace character is kept. -/
def subWS (text : Str) : Str :=
  match text with
  | [] => []
  | c :: rest =>
    if isPySpace c && headIsWS rest then ' ' :: subWS (rest.dropWhile isPySpace)
    else c :: subWS rest
termination_by text.length
decreasing_by
  · have h1 : (rest.dropWhile isPySpace).Sublist rest := List.dropWhile_sublist _
    have := h1.length_le
    simp; omega
  · simp [Nat.lt_succ_self]

/-- Wordness of the lookbehind position for the sentence splitter: does the
previous character end a sentence? -/
def prevIsSentEnd : Option Char → Bool
  | none => false
  | some c => isSentEnd c

/-- `re.split(r"(?<=[.!?])\s+", text)`: split at each maximal whitespace
run whose preceding character is sentence-ending punctuation.  `prev` is
the character before the current position. -/
def splitSentAux (prev : Option Char) (l : Str) : List Str :=
  match l with
  | [] => [[]]
  | c :: rest =>
    if isPySpace c && prevIsSentEnd prev then
      [] :: splitSentAux (some ((rest.takeWhile isPySpace).getLastD c)) (rest.dropWhile isPySpace)
    else
      match splitSentAux (some c) rest with
      | u :: us => (c :: u) :: us
      | [] => [[c]]
termination_by l.length
decreasing_by
  · have h1 : (rest.dropWhile isPySpace).Sublist rest := List.dropWhile_sublist _
    have := h1.length_le
    simp; omega
  · simp [Nat.lt_succ_self]

/-- The page-text cleaning pipeline of `extract_text_from_pdf_bytes`. -/
def cleanPageText (t : Str) : Str := subWS (subNL (subHyph t))

/-- One page of `extract_text_from_pdf_bytes`: clean, split into
sentence-like units, strip each, drop empties. -/
def processPage (t : Str) : List Str :=
  ((splitSentAux none (cleanPageText t)).map pyStrip).filter fun p => !p.isEmpty

/-- `extract_text_from_pdf_bytes` from the source: the per-page loop with
`paragraphs.extend(page_pars)`. -/
def extract_text_from_pdf_bytes (pages : List Str) : List Str :=
  pages.foldl (fun paragraphs t => paragraphs ++ processPage t) []

/-! ## Keyword tokenization (`process_click`) -/

/-- `re.split(r"[\s,]+", raw)`: split at each maximal run of whitespace or
commas. -/
def splitSeps (l : Str) : List Str :=
  match l with
  | [] => [[]]
  | c :: rest =>
    if isTokSep c then [] :: splitSeps (rest.dropWhile isTokSep)
    else
      match splitSeps rest with
      | u :: us => (c :: u) :: us
      | [] => [[c]]
termination_by l.length
decreasing_by
  · have h1 : (rest.dropWhile isTokSep).Sublist rest := List.dropWhile_sublist _
    have := h1.length_le
    simp; omega
  · simp [Nat.lt_succ_self]

/-- `[k.strip() for k in re.split(r"[\s,]+", keywords_raw) if k.strip()]`. -/
def splitTokens (raw : Str) : List Str :=
  (splitSeps raw).filterMap fun k =>
    let s := pyStrip k
    if s.isEmpty then none else some s

/-! ## Selection (`update_output`)

The session dictionaries are modelled as insertion-ordered association
lists: `source_checkboxes` as `List (Str × Bool)` and `source_paragraphs`
as `List (Str × List Str)`. -/

/-- First 200 characters of a paragraph, the deduplication key `p[:200]`. -/
def prefix200 (p : Str) : Str := p.take 200

/-- The inner loop of `update_output` over one source's paragraphs:
keep matching paragraphs whose 200-character key is unseen, threading the
`seen` set (modelled as a list of keys). -/
def pickParas (keywords : List Str) (src : Str) :
    List Str → List Str → List (Str × Str) × List Str
  | [], seen => ([], seen)
  | p :: ps, seen =>
    if paragraph_matches p keywords then
      if prefix200 p ∈ seen then pickParas keywords src ps seen
      else
        let r := pickParas keywords src ps (prefix200 p :: seen)
        ((src, p) :: r.1, r.2)
    else pickParas keywords src ps seen

/-- `selected_sources = [src for src, cb in source_checkboxes.items() if cb.value]`. -/
def selectSources (checkboxes : List (Str × Bool)) : List Str :=
  (checkboxes.filter fun sc => sc.2).map fun sc => sc.1

/-- The outer loop of `update_output` over the selected sources, with
`source_paragraphs.get(source, [])` lookup and the shared `seen` set. -/
def selectGo (source_paragraphs : List (Str × List Str)) (keywords : List Str) :
    List Str → List Str → List (Str × Str)
  | [], _ => []
  | src :: rest, seen =>
    let pr := pickParas keywords src ((source_paragraphs.lookup src).getD []) seen
    pr.1 ++ selectGo source_paragraphs keywords rest pr.2

/-- The `matching_paragraphs` selection computed by `update_output`. -/
def update_output_select (checkboxes : List (Str × Bool))
    (source_paragraphs : List (Str × List Str)) (keywords : List Str) :
    List (Str × Str) :=
  selectGo source_paragraphs keywords (selectSources checkboxes) []

/-! ## The interactive shell (`process_click`, `on_save_result`)

External collaborators (HTTP, HTML parsing, PDF decoding, the widget tree)
are abstracted: the HTTP+BeautifulSoup outcome for the URL and the
open+pdfplumber outcome for each chosen file enter as `Except` values.
The snack-bar notification is recorded in the state. -/

/-- The session and display state touched by `process_click` and
`update_output`. -/
structure ShellState where
  source_paragraphs : List (Str × List Str)
  keywords : List Str
  checkboxes : List (Str × Bool)
  output : Str
  snack : Option Str
deriving DecidableEq

/-- The user inputs read by `process_click`.  `picker` models
`file_picker.result`: `none` when no file dialog ever completed,
`some none` when the dialog completed with `files = None` (cancelled),
`some (some fs)` when files were chosen; each file carries its name and
the outcome of reading and decoding it. -/
structure SubmitInput where
  url_value : Str
  keywords_value : Str
  picker : Option (Option (List (Str × Except Str (List Str))))

/-- `extract_text_from_url` over the abstract HTTP outcome: a transport
error or non-success status becomes the wrapped `RuntimeError` message;
on success the paragraphs produced by the HTML collaborator are returned. -/
def extract_text_from_url (resp : Except Str (List Str)) : Except Str (List Str) :=
  match resp with
  | .error e => .error (("Błąd przy pobieraniu strony: ".data) ++ e)
  | .ok paragraphs => .ok paragraphs

/-- The PDF loop of `process_click`: files are processed in order, each
successful file appends a `"Plik PDF: name"` entry to the mapping; the
first failure stops the loop, keeping the entries added so far. -/
def load_pdfs_loop (sp : List (Str × List Str)) :
    List (Str × Except Str (List Str)) → List (Str × List Str) × Option Str
  | [] => (sp, none)
  | (name, res) :: rest =>
    match res with
    | .error e => (sp, some e)
    | .ok pars => load_pdfs_loop (sp ++ [(("Plik PDF: ".data) ++ name, pars)]) rest

/-- The tail of `process_click` after the URL stage: load the chosen PDFs,
then rebuild the checkbox list (all included) and recompute the output via
`update_output`; on a PDF failure, keep the partial mapping, leave the
checkbox list cleared and the output untouched, and show the error. -/
def finish_load (inp : SubmitInput) (kws : List Str) (sp0 : List (Str × List Str))
    (st : ShellState) : ShellState :=
  let files :=
    match inp.picker with
    | some (some fs) => fs
    | _ => []
  match load_pdfs_loop sp0 files with
  | (sp, some e) =>
    { st with keywords := kws, source_paragraphs := sp, checkboxes := [], snack := some e }
  | (sp, none) =>
    let cbs := sp.map fun s => (s.1, true)
    { st with
      keywords := kws
      source_paragraphs := sp
      checkboxes := cbs
      output := build_result_text_with_sources (update_output_select cbs sp kws) kws }

/-- `process_click` from the source.  `httpRes` is the abstract outcome of
the HTTP fetch + HTML parse for the URL (only consulted when a URL was
given). -/
def process_click (inp : SubmitInput) (httpRes : Except Str (List Str))
    (st : ShellState) : ShellState :=
  let url := pyStrip inp.url_value
  let keywords_raw := pyStrip inp.keywords_value
  if url.isEmpty && inp.picker.isNone then
    { st with snack := some ("Podaj URL lub wybierz plik(i) PDF".data) }
  else if keywords_raw.isEmpty then
    { st with snack := some ("Podaj przynajmniej jedno słowo kluczowe".data) }
  else
    let kws := splitTokens keywords_raw
    if url.isEmpty then
      finish_load inp kws [] st
    else
      match extract_text_from_url httpRes with
      | .error e =>
        { st with
          keywords := kws
          source_paragraphs := []
          checkboxes := []
          snack := some e }
      | .ok pars =>
        finish_load inp kws [(("URL: ".data) ++ url, pars)] st

/-! ## Derived notions used in the claim statements -/

/-- Spec-side notion for C1: the keyword `K` occurs in `P` as a whole word,
case-insensitively, with a word boundary on both sides. -/
def OccursWholeWord (K P : Str) : Prop :=
  ∃ pre w suf, P = pre ++ w ++ suf ∧ pyLower w = pyLower K ∧
    isWordOpt pre.getLast? ≠ isWordOpt w.head? ∧
    isWordOpt w.getLast? ≠ isWordOpt suf.head?

/-- The matching paragraphs of one source, in paragraph order, before
deduplication. -/
def srcMatches (keywords : List Str) (src : Str) (ps : List Str) : List (Str × Str) :=
  ps.filterMap fun p => if paragraph_matches p keywords then some (src, p) else none

/-- All matching `(source, paragraph)` pairs of the selected sources, in
source-iteration-then-paragraph order, before deduplication. -/
def allMatches (source_paragraphs : List (Str × List Str)) (keywords : List Str)
    (srcs : List Str) : List (Str × Str) :=
  (srcs.map fun src =>
    srcMatches keywords src ((source_paragraphs.lookup src).getD [])).flatten

/-- Keep-first deduplication by 200-character prefix, threading the set of
seen keys. -/
def dedupFirstAux : List (Str × Str) → List Str → List (Str × Str) × List Str
  | [], seen => ([], seen)
  | e :: rest, seen =>
    if prefix200 e.2 ∈ seen then dedupFirstAux rest seen
    else
      let r := dedupFirstAux rest (prefix200 e.2 :: seen)
      (e :: r.1, r.2)

/-- Keep-first deduplication by 200-character prefix. -/
def dedupFirst (l : List (Str × Str)) : List (Str × Str) := (dedupFirstAux l []).1

/-- No two consecutive `*` characters. -/
def noDS : Str → Bool
  | a :: b :: rest => !(a == '*' && b == '*') && noDS (b :: rest)
  | _ => true

/-- No two consecutive newline characters. -/
def noDD : Str → Bool
  | a :: b :: rest => !(a == '\n' && b == '\n') && noDD (b :: rest)
  | _ => true

/-- The last character exists and is not whitespace. -/
def endsNonSpace (l : Str) : Bool :=
  match l.getLast? with
  | none => false
  | some c => !isPySpace c

/-- Benign formatted entry for the export round trip (C3): the source label
has no newline, no doubled star and no trailing whitespace; the emphasized
paragraph body is non-empty, already stripped, and free of newlines and
doubled stars. -/
def GoodEntry (keywords : List Str) (e : Str × Str) : Prop :=
  ('\n' ∉ e.1) ∧ noDS (e.1 ++ ['*']) = true ∧ endsNonSpace e.1 = true ∧
  ('\n' ∉ bold_keywords e.2 keywords) ∧ noDS (bold_keywords e.2 keywords) = true ∧
  pyStrip (bold_keywords e.2 keywords) = bold_keywords e.2 keywords ∧
  bold_keywords e.2 keywords ≠ []

/-- The document paragraphs the export of a formatted selection actually
produces: the first entry's header (bold markers stripped) and body, then,
for each later entry, the separator glued to its header, and its body. -/
def exportShape (sel : List (Str × Str)) (keywords : List Str) : List Str :=
  match sel with
  | [] => []
  | e :: rest =>
    (("Źródło: ".data) ++ e.1) :: bold_keywords e.2 keywords ::
      (rest.map fun e2 =>
        [("---\nŹródło: ".data) ++ e2.1, bold_keywords e2.2 keywords]).flatten

/-- The formatted text after bold stripping, used to analyse the export:
source headers keep their text but lose the `**` markers. -/
def cleanedShape (sel : List (Str × Str)) (kws : List Str) : Str :=
  joinSep ("\n---\n".data)
    (sel.map fun sp =>
      ("Źródło: ".data) ++ sp.1 ++ ("\n\n".data) ++ bold_keywords sp.2 kws ++ ("\n".data))

/-- Find the shortest `(.*?)\*` continuation for single-star emphasis. -/
def findCloseS : (l : Str) → Option (Str × {r : Str // r.length ≤ l.length})
  | '*' :: rest => some ([], ⟨rest, by simp⟩)
  | '\n' :: _ => none
  | c :: rest =>
    match findCloseS rest with
    | some (inner, ⟨r, hr⟩) => some (c :: inner, ⟨r, by simp; omega⟩)
    | none => none
  | [] => none

/-- Strip single-star emphasis spans, the way `stripBold` strips bold. -/
def stripEmph (text : Str) : Str :=
  match text with
  | [] => []
  | '*' :: rest =>
    match findCloseS rest with
    | some (inner, ⟨r, _hr⟩) => inner ++ stripEmph r
    | none => '*' :: stripEmph rest
  | c :: rest => c :: stripEmph rest
termination_by text.length
decreasing_by
  · simp; omega
  · simp [Nat.lt_succ_self]
  · simp [Nat.lt_succ_self]

/-- The paragraphs the specification's round-trip property expects from the
export (C3), following the spec's words: ALL emphasis markup stripped back
to plain text, split on blank lines, non-empty stripped segments. -/
def specPlainParas (text : Str) : List Str :=
  (splitDD (stripEmph (stripBold text))).filterMap keepStripped

/-- Decompose a text into its maximal runs of word characters and non-word
characters, each run tagged with its wordness. -/
def tokenize : Str → List (Bool × Str)
  | [] => []
  | c :: rest =>
    match tokenize rest with
    | [] => [(isWordChar c, [c])]
    | (b, t) :: ts =>
      if isWordChar c == b then (b, c :: t) :: ts
      else (isWordChar c, [c]) :: (b, t) :: ts

/-- Wrap one token: a word run equal to the keyword case-insensitively is
emphasized, every other token is left unchanged. -/
def wrapTok (kw : Str) (bt : Bool × Str) : Str :=
  if bt.1 && (pyLower bt.2 == pyLower kw) then '*' :: bt.2 ++ ['*'] else bt.2

/-- Spec-side notion for C6: the paragraph with every whole-word
case-insensitive occurrence of the keyword (that is, every maximal word run
equal to it case-insensitively) wrapped in emphasis markers and every
other character unchanged. -/
def wrapWholeWords (kw : Str) (p : Str) : Str :=
  ((tokenize p).map (wrapTok kw)).flatten

/-- Well-formed token list: tokens are non-empty uniform runs and adjacent
tokens alternate wordness (`prevB` is the wordness of the previous token). -/
def altToks : Option Bool → List (Bool × Str) → Bool
  | _, [] => true
  | prevB, (b, t) :: rest =>
    !t.isEmpty && t.all (fun c => isWordChar c == b) &&
      (match prevB with | some pb => pb != b | none => true) && altToks (some b) rest

/-- The character just before the current position, after scanning past
`pre` with initial lookbehind `prev`. -/
def prevAfter (prev : Option Char) (pre : Str) : Option Char :=
  match pre.getLast? with
  | some c => some c
  | none => prev

/-- Whether the text contains a hyphen immediately followed by a newline. -/
def hasHyphNL : Str → Bool
  | '-' :: '\n' :: _ => true
  | _ :: rest => hasHyphNL rest
  | [] => false

/-- No two consecutive whitespace characters. -/
def noDoubleWS : Str → Bool
  | a :: b :: rest => !(isPySpace a && isPySpace b) && noDoubleWS (b :: rest)
  | _ => true

/-- No whitespace character immediately preceded by sentence-ending
punctuation (no interior sentence-split point). -/
def noSplitPair : Str → Bool
  | a :: b :: rest => !(isSentEnd a && isPySpace b) && noSplitPair (b :: rest)
  | _ => true

/-! ## Character-level lemmas -/

theorem isWordChar_toLow (c : Char) : isWordChar (toLow c) = isWordChar c := by
  unfold toLow
  split <;> first | decide | rfl

theorem isWordChar_of_toLow_eq {a b : Char} (h : toLow a = toLow b) :
    isWordChar a = isWordChar b := by
  rw [← isWordChar_toLow a, ← isWordChar_toLow b, h]

/-! ## Characterizing `ciStartsWith` -/

theorem length_pyLower (l : Str) : (pyLower l).length = l.length := by
  simp [pyLower]

theorem ciStartsWith_iff (k : Str) : ∀ t : Str,
    ciStartsWith k t = true ↔
      k.length ≤ t.length ∧ pyLower (t.take k.length) = pyLower k := by
  induction k with
  | nil => intro t; simp [ciStartsWith, pyLower]
  | cons kc ks ih =>
    intro t
    cases t with
    | nil => simp [ciStartsWith]
    | cons tc ts =>
      simp only [ciStartsWith, Bool.and_eq_true, beq_iff_eq, ih ts, List.length_cons,
        List.take_succ_cons, pyLower, List.map_cons, List.cons.injEq]
      constructor
      · rintro ⟨h1, h2, h3⟩
        exact ⟨by omega, h1.symm, h3⟩
      · rintro ⟨h1, h2, h3⟩
        exact ⟨h2.symm, by omega, h3⟩

theorem ciStartsWith_of_pyLower_eq {k w : Str} (h : pyLower w = pyLower k) (x : Str) :
    ciStartsWith k (w ++ x) = true := by
  have hl : w.length = k.length := by
    rw [← length_pyLower w, ← length_pyLower k, h]
  rw [ciStartsWith_iff]
  constructor
  · simp; omega
  · rw [← hl, List.take_left, h]

/-! ## `matchWordAt` as an explicit decomposition -/

theorem matchWordAt_iff {kw : Str} (hkw : kw ≠ []) (text : Str) (prev : Option Char) :
    matchWordAt kw text prev = true ↔
      ∃ w suf, text = w ++ suf ∧ pyLower w = pyLower kw ∧
        isWordOpt prev ≠ isWordOpt w.head? ∧
        isWordOpt w.getLast? ≠ isWordOpt suf.head? := by
  constructor
  · intro h
    simp only [matchWordAt, Bool.and_eq_true, bne_iff_ne] at h
    obtain ⟨⟨hci, hb1⟩, hb2⟩ := h
    rw [ciStartsWith_iff] at hci
    obtain ⟨hlen, hlow⟩ := hci
    refine ⟨text.take kw.length, text.drop kw.length, (List.take_append_drop _ _).symm,
      hlow, ?_, hb2⟩
    have hkl : 0 < kw.length := List.length_pos.mpr hkw
    have : (text.take kw.length).head? = text.head? := by
      cases text with
      | nil => simp
      | cons c cs =>
        cases hn : kw.length with
        | zero => omega
        | succ m => simp [List.take_succ_cons]
    rw [this]
    exact hb1
  · rintro ⟨w, suf, rfl, hlow, hb1, hb2⟩
    have hl : w.length = kw.length := by
      rw [← length_pyLower w, ← length_pyLower kw, hlow]
    have hw : w ≠ [] := by
      intro h
      subst h
      simp at hl
      exact hkw (List.length_eq_zero.mp hl.symm)
    simp only [matchWordAt, Bool.and_eq_true, bne_iff_ne]
    refine ⟨⟨ciStartsWith_of_pyLower_eq hlow suf, ?_⟩, ?_⟩
    · have : (w ++ suf).head? = w.head? := by
        cases w with
        | nil => exact absurd rfl hw
        | cons c cs => simp
      rw [this]
      exact hb1
    · rw [← hl, List.take_left, List.drop_left]
      exact hb2

/-! ## `searchFrom` finds a match somewhere -/

theorem prevAfter_nil (prev : Option Char) : prevAfter prev [] = prev := rfl

theorem prevAfter_none (pre : Str) : prevAfter none pre = pre.getLast? := by
  unfold prevAfter
  cases pre.getLast? <;> simp

theorem prevAfter_cons (prev : Option Char) (c : Char) (pre : Str) :
    prevAfter prev (c :: pre) = prevAfter (some c) pre := by
  unfold prevAfter
  cases hp : pre.getLast? with
  | some d => simp [List.getLast?_cons, hp]
  | none =>
    have : pre = [] := by
      cases pre with
      | nil => rfl
      | cons x xs => simp [List.getLast?_cons] at hp
    subst this
    simp

theorem searchFrom_iff (kw : Str) : ∀ (text : Str) (prev : Option Char),
    searchFrom kw prev text = true ↔
      ∃ pre rest, text = pre ++ rest ∧
        matchWordAt kw rest (prevAfter prev pre) = true := by
  intro text
  induction text with
  | nil =>
    intro prev
    simp only [searchFrom]
    constructor
    · intro h
      exact ⟨[], [], rfl, by rwa [prevAfter_nil]⟩
    · rintro ⟨pre, rest, hsplit, hm⟩
      obtain ⟨hpre, hrest⟩ := List.append_eq_nil.mp hsplit.symm
      subst hpre; subst hrest
      rwa [prevAfter_nil] at hm
  | cons c cs ih =>
    intro prev
    simp only [searchFrom, Bool.or_eq_true, ih (some c)]
    constructor
    · rintro (hm | ⟨pre, rest, hsplit, hm⟩)
      · exact ⟨[], c :: cs, rfl, by rwa [prevAfter_nil]⟩
      · refine ⟨c :: pre, rest, by simp [hsplit], ?_⟩
        rwa [prevAfter_cons]
    · rintro ⟨pre, rest, hsplit, hm⟩
      cases pre with
      | nil =>
        left
        simp only [List.nil_append] at hsplit
        subst hsplit
        rwa [prevAfter_nil] at hm
      | cons p ps =>
        right
        simp only [List.cons_append, List.cons.injEq] at hsplit
        obtain ⟨rfl, hsplit⟩ := hsplit
        exact ⟨ps, rest, hsplit, by rwa [prevAfter_cons] at hm⟩

/-- C1: for every paragraph `P` and non-empty keyword `K`,
`paragraph_matches P [K]` is true exactly when `K` occurs in `P` as a
case-insensitive whole word (word boundary on both sides); in particular it
is false when `K` occurs only inside a longer word. -/
theorem C1_matches_iff_whole_word (P K : Str) (hK : K ≠ []) :
    paragraph_matches P [K] = true ↔ OccursWholeWord K P := by
  have hne : K.isEmpty = false := by
    cases K with
    | nil => exact absurd rfl hK
    | cons c cs => rfl
  simp only [paragraph_matches, List.any_cons, List.any_nil, Bool.or_false, hne,
    Bool.not_false, Bool.true_and]
  rw [searchFrom_iff]
  constructor
  · rintro ⟨pre, rest, rfl, hm⟩
    rw [prevAfter_none] at hm
    rw [matchWordAt_iff hK] at hm
    obtain ⟨w, suf, rfl, hlow, hb1, hb2⟩ := hm
    exact ⟨pre, w, suf, by simp, hlow, hb1, hb2⟩
  · rintro ⟨pre, w, suf, rfl, hlow, hb1, hb2⟩
    refine ⟨pre, w ++ suf, by simp, ?_⟩
    rw [prevAfter_none, matchWordAt_iff hK]
    exact ⟨w, suf, rfl, hlow, hb1, hb2⟩

/-- Witness for C1 at a concrete input: the keyword `cat` is non-empty, and
the equivalence evaluates at the paragraph `my cat sleeps`. -/
theorem C1_matches_iff_whole_word_witness :
    paragraph_matches ("my cat sleeps".data) [("cat".data)] = true ↔
      OccursWholeWord ("cat".data) ("my cat sleeps".data) :=
  C1_matches_iff_whole_word ("my cat sleeps".data) ("cat".data) (by decide)

/-! ## C10: no match means no change -/

theorem subScan_of_no_match (kw : Str) :
    ∀ (text : Str) (prev : Option Char), searchFrom kw prev text = false →
      subScan kw prev text = text := by
  intro text
  induction text with
  | nil => intro prev _; rw [subScan]
  | cons c rest ih =>
    intro prev h
    simp only [searchFrom, Bool.or_eq_false_iff] at h
    rw [subScan, dif_neg]
    · rw [ih (some c) h.2]
    · rintro ⟨-, hm⟩
      rw [h.1] at hm
      cases hm

/-- C10: if no non-empty keyword occurs in the paragraph as a
case-insensitive whole-word match, then `bold_keywords` returns the
paragraph unchanged. -/
theorem C10_no_match_no_change (P : Str) (K : List Str)
    (h : paragraph_matches P K = false) : bold_keywords P K = P := by
  induction K with
  | nil => rfl
  | cons k ks ih =>
    simp only [paragraph_matches, List.any_cons, Bool.or_eq_false_iff,
      Bool.and_eq_false_iff] at h
    obtain ⟨hk, hks⟩ := h
    have step : (if k.isEmpty then P else subScan k none P) = P := by
      rcases hk with he | hs
      · have hke : k.isEmpty = true := by simpa using he
        simp [hke]
      · cases hke : k.isEmpty with
        | true => simp
        | false => simp [subScan_of_no_match k P none hs]
    have hfold : bold_keywords P (k :: ks) =
        bold_keywords (if k.isEmpty then P else subScan k none P) ks := rfl
    rw [hfold, step]
    exact ih hks

/-- Witness for C10 at a concrete input: `cat` does not occur in
`dog park` and the paragraph is returned unchanged. -/
theorem C10_no_match_no_change_witness :
    bold_keywords ("dog park".data) [("cat".data)] = "dog park".data :=
  C10_no_match_no_change ("dog park".data) [("cat".data)] (by decide)

/-! ## C5: keyword lists of empty tokens select nothing -/

theorem paragraph_matches_all_empty {kws : List Str}
    (h : ∀ k ∈ kws, k = []) (p : Str) : paragraph_matches p kws = false := by
  simp only [paragraph_matches, List.any_eq_false]
  intro k hk
  rw [h k hk]
  simp

theorem pickParas_no_match {kws : List Str} (hpm : ∀ p : Str, paragraph_matches p kws = false)
    (src : Str) : ∀ (ps : List Str) (seen : List Str),
      pickParas kws src ps seen = ([], seen) := by
  intro ps
  induction ps with
  | nil => intro seen; rfl
  | cons p rest ih => intro seen; simp [pickParas, hpm p, ih]

/-- C5 (amended): for every checkbox state, session mapping and keyword
list all of whose tokens are empty (including the empty list), the
selection computed by `update_output` is empty. -/
theorem C5_empty_tokens_select_nothing (cbs : List (Str × Bool))
    (sp : List (Str × List Str)) (kws : List Str) (h : ∀ k ∈ kws, k = []) :
    update_output_select cbs sp kws = [] := by
  have hpm := paragraph_matches_all_empty h
  unfold update_output_select
  generalize selectSources cbs = srcs
  generalize ([] : List Str) = seen
  induction srcs generalizing seen with
  | nil => rfl
  | cons src rest ih => simp [selectGo, pickParas_no_match hpm, ih]

/-- Witness for C5 at a concrete input: two empty tokens select nothing
from a non-empty session. -/
theorem C5_empty_tokens_select_nothing_witness :
    update_output_select [(("s".data), true)] [(("s".data), [("a b".data)])]
      [[], []] = [] :=
  C5_empty_tokens_select_nothing _ _ _ (by decide)

/-- C5 counterexample: the claim also covers whitespace-only tokens, but a
whitespace-only keyword is truthy in Python, is not skipped, and `\b \b`
matches a space between word characters, so the selection is non-empty. -/
theorem C5_whitespace_token_counterexample :
    update_output_select [(("s".data), true)] [(("s".data), [("a b".data)])]
      [(" ".data)] ≠ [] := by decide

/-! ## C2: deduplication by 200-character prefix -/

theorem pickParas_eq_dedup (kws : List Str) (src : Str) :
    ∀ (ps : List Str) (seen : List Str),
      pickParas kws src ps seen = dedupFirstAux (srcMatches kws src ps) seen := by
  intro ps
  induction ps with
  | nil => intro seen; rfl
  | cons p rest ih =>
    intro seen
    simp only [srcMatches, List.filterMap_cons]
    cases hm : paragraph_matches p kws with
    | false => simp only [pickParas, hm, if_false, Bool.false_eq_true]; exact ih seen
    | true =>
      simp only [pickParas, hm, if_true]
      by_cases hseen : prefix200 p ∈ seen
      · simp only [dedupFirstAux, hseen, if_pos]
        exact ih seen
      · simp only [dedupFirstAux, hseen, if_neg, not_false_iff]
        rw [ih (prefix200 p :: seen)]
        rfl

theorem dedupFirstAux_append (a b : List (Str × Str)) : ∀ seen : List Str,
    dedupFirstAux (a ++ b) seen =
      ((dedupFirstAux a seen).1 ++ (dedupFirstAux b (dedupFirstAux a seen).2).1,
        (dedupFirstAux b (dedupFirstAux a seen).2).2) := by
  induction a with
  | nil => intro seen; simp [dedupFirstAux]
  | cons e rest ih =>
    intro seen
    by_cases hseen : prefix200 e.2 ∈ seen
    · simp only [List.cons_append, dedupFirstAux, hseen, if_pos]
      exact ih seen
    · simp only [List.cons_append, dedupFirstAux, hseen, if_neg, not_false_iff,
        List.append_eq]
      rw [ih (prefix200 e.2 :: seen)]

theorem selectGo_eq_dedup (sp : List (Str × List Str)) (kws : List Str) :
    ∀ (srcs : List Str) (seen : List Str),
      selectGo sp kws srcs seen = (dedupFirstAux (allMatches sp kws srcs) seen).1 := by
  intro srcs
  induction srcs with
  | nil => intro seen; rfl
  | cons src rest ih =>
    intro seen
    simp only [selectGo, allMatches, List.map_cons, List.flatten_cons]
    rw [pickParas_eq_dedup, dedupFirstAux_append, ih]
    rfl

theorem dedupFirstAux_distinct : ∀ (l : List (Str × Str)) (seen : List Str),
    ((dedupFirstAux l seen).1).Pairwise (fun a b => prefix200 a.2 ≠ prefix200 b.2) ∧
      ∀ e ∈ (dedupFirstAux l seen).1, prefix200 e.2 ∉ seen := by
  intro l
  induction l with
  | nil => intro seen; simp [dedupFirstAux]
  | cons e rest ih =>
    intro seen
    by_cases hseen : prefix200 e.2 ∈ seen
    · simp only [dedupFirstAux, hseen, if_pos]
      exact ih seen
    · simp only [dedupFirstAux, hseen, if_neg, not_false_iff]
      obtain ⟨hpw, hnotin⟩ := ih (prefix200 e.2 :: seen)
      refine ⟨List.Pairwise.cons ?_ hpw, ?_⟩
      · intro b hb heq
        exact hnotin b hb (by rw [← heq]; exact List.mem_cons_self _ _)
      · intro f hf
        rcases List.mem_cons.mp hf with hf | hf
        · subst hf; exact hseen
        · intro hmem
          exact hnotin f hf (List.mem_cons_of_mem _ hmem)

/-- C2: the selection computed by `update_output` equals keep-first
deduplication (by the paragraph's first 200 characters, shared across all
sources) of the full list of matches in source-iteration-then-paragraph
order, and consequently no two selected entries share that prefix. -/
theorem C2_dedup_invariant (cbs : List (Str × Bool)) (sp : List (Str × List Str))
    (kws : List Str) :
    update_output_select cbs sp kws =
      dedupFirst (allMatches sp kws (selectSources cbs)) ∧
    (update_output_select cbs sp kws).Pairwise
      (fun a b => prefix200 a.2 ≠ prefix200 b.2) := by
  have h := selectGo_eq_dedup sp kws (selectSources cbs) []
  refine ⟨h, ?_⟩
  unfold update_output_select
  rw [h]
  exact (dedupFirstAux_distinct (allMatches sp kws (selectSources cbs)) []).1

/-! ## C8: save-path normalization -/

/-- C8: the chosen save path keeps its `.docx` suffix test: a path already
ending in `.docx` (case-insensitively) is used unchanged, any other path
gets its trailing dots removed and `.docx` appended, and every path
actually written to ends in `.docx` case-insensitively. -/
theorem C8_save_path_normalized (path : Str) :
    ((".docx".data).isSuffixOf (pyLower path) = true → normalizeSavePath path = path) ∧
    ((".docx".data).isSuffixOf (pyLower path) = false →
      normalizeSavePath path = rstripDot path ++ (".docx".data)) ∧
    ∀ q ∈ on_save_result_path (some path),
      (".docx".data).isSuffixOf (pyLower q) = true := by
  refine ⟨?_, ?_, ?_⟩
  · intro h
    simp [normalizeSavePath, h]
  · intro h
    simp [normalizeSavePath, h]
  · intro q hq
    have hnorm : (".docx".data).isSuffixOf (pyLower (normalizeSavePath path)) = true := by
      by_cases h : (".docx".data).isSuffixOf (pyLower path) = true
      · simp [normalizeSavePath, h]
      · have hf : (".docx".data).isSuffixOf (pyLower path) = false :=
          Bool.not_eq_true _ ▸ (Bool.of_not_eq_true h)
        simp only [normalizeSavePath, hf, Bool.false_eq_true, if_false]
        have : pyLower (rstripDot path ++ (".docx".data)) =
            pyLower (rstripDot path) ++ (".docx".data) := by
          simp [pyLower]
          decide
        rw [this, List.isSuffixOf_iff_suffix]
        exact List.suffix_append _ _
    simp only [on_save_result_path] at hq
    by_cases hemp : path.isEmpty = true
    · simp [hemp] at hq
    · have hemp' : path.isEmpty = false := by
        cases hpe : path.isEmpty
        · rfl
        · exact absurd hpe hemp
      simp only [hemp', Bool.false_eq_true, if_false, Option.mem_def,
        Option.some.injEq] at hq
      subst hq
      exact hnorm

/-- Witness for C8 at a concrete input: `report..` gains the suffix and
`report.DocX` is kept. -/
theorem C8_save_path_normalized_witness :
    normalizeSavePath ("report..".data) = rstripDot ("report..".data) ++ (".docx".data) ∧
    normalizeSavePath ("report.DocX".data) = "report.DocX".data :=
  ⟨(C8_save_path_normalized ("report..".data)).2.1 (by decide),
    (C8_save_path_normalized ("report.DocX".data)).1 (by decide)⟩

/-! ## C4: URL fetch failure -/

/-- C4 counterexample: on a failed URL fetch the pre-submit session mapping
is not preserved — `process_click` clears `source_paragraphs` before
fetching, so a previously loaded session is lost. -/
theorem C4_state_not_preserved_counterexample :
    (process_click ⟨"http://a".data, "cat".data, none⟩
        (.error ("404 Client Error".data))
        ⟨[(("URL: old".data), [("x".data)])], [], [(("URL: old".data), true)],
          "prev".data, none⟩).source_paragraphs ≠
      [(("URL: old".data), [("x".data)])] := by decide

/-- C4 (amended): when a URL is given with non-empty keywords and the fetch
fails, the wrapped fetch-error message is surfaced as the notification, the
source mapping and checkbox list are left empty (they were cleared before
the fetch, so the pre-submit mapping is lost and no partial result is
retained), the keyword list is the newly parsed one, and the displayed
output is unchanged; the shell returns to its idle interactive state. -/
theorem C4_fetch_error_behavior (st : ShellState) (inp : SubmitInput) (e : Str)
    (hurl : (pyStrip inp.url_value).isEmpty = false)
    (hkw : (pyStrip inp.keywords_value).isEmpty = false) :
    process_click inp (.error e) st =
      { st with
        keywords := splitTokens (pyStrip inp.keywords_value)
        source_paragraphs := []
        checkboxes := []
        snack := some (("Błąd przy pobieraniu strony: ".data) ++ e) } := by
  simp [process_click, hurl, hkw, extract_text_from_url]

/-- Witness for C4 at a concrete input. -/
theorem C4_fetch_error_behavior_witness :
    process_click ⟨"http://a".data, "cat".data, none⟩ (.error ("404".data))
        ⟨[(("URL: old".data), [("x".data)])], [], [(("URL: old".data), true)],
          "prev".data, none⟩ =
      { source_paragraphs := []
        keywords := splitTokens (pyStrip ("cat".data))
        checkboxes := []
        output := "prev".data
        snack := some (("Błąd przy pobieraniu strony: ".data) ++ ("404".data)) } :=
  C4_fetch_error_behavior _ _ _ (by decide) (by decide)

/-! ## C7: validation on submit -/

/-- C7 counterexample: submitting with no URL and no file selected — but
after a cancelled file dialog (`file_picker.result` exists with no files) —
does not report a validation error (the notification is unchanged) and does
not leave the session state unchanged: the source mapping is cleared. -/
theorem C7_cancelled_picker_counterexample :
    (process_click ⟨[], "cat".data, some none⟩ (.ok [])
        ⟨[(("URL: old".data), [("x".data)])], [], [(("URL: old".data), true)],
          "prev".data, none⟩).snack = none ∧
    (process_click ⟨[], "cat".data, some none⟩ (.ok [])
        ⟨[(("URL: old".data), [("x".data)])], [], [(("URL: old".data), true)],
          "prev".data, none⟩).source_paragraphs ≠
      [(("URL: old".data), [("x".data)])] := by
  constructor
  · decide
  · decide

/-- C7 (amended): a validation error with no state change occurs exactly in
these two cases — (a) the stripped URL is empty and the file picker never
produced a result at all: the missing-source message is shown and the state
is otherwise untouched; (b) otherwise, if the stripped keyword field is
empty: the missing-keywords message is shown and the state is otherwise
untouched.  (A cancelled picker dialog counts as a result, so a submit with
no URL and a cancelled dialog proceeds and replaces the session.) -/
theorem C7_validation_blocks (st : ShellState) (inp : SubmitInput)
    (httpRes : Except Str (List Str)) :
    ((pyStrip inp.url_value).isEmpty = true → inp.picker = none →
      process_click inp httpRes st =
        { st with snack := some ("Podaj URL lub wybierz plik(i) PDF".data) }) ∧
    (((pyStrip inp.url_value).isEmpty = false ∨ inp.picker ≠ none) →
      (pyStrip inp.keywords_value).isEmpty = true →
      process_click inp httpRes st =
        { st with snack := some ("Podaj przynajmniej jedno słowo kluczowe".data) }) := by
  constructor
  · intro h1 h2
    simp [process_click, h1, h2]
  · intro h1 h2
    rcases h1 with h1 | h1
    · simp [process_click, h1, h2]
    · have : inp.picker.isNone = false := by
        cases hp : inp.picker with
        | none => exact absurd hp h1
        | some v => rfl
      simp [process_click, this, h2]

/-- Witness for C7 at concrete inputs: both validation branches fire and
preserve the state. -/
theorem C7_validation_blocks_witness :
    process_click ⟨" ".data, "cat".data, none⟩ (.ok [])
        ⟨[], [], [], "o".data, none⟩ =
      { source_paragraphs := []
        keywords := []
        checkboxes := []
        output := "o".data
        snack := some ("Podaj URL lub wybierz plik(i) PDF".data) } ∧
    process_click ⟨"http://a".data, "  ".data, none⟩ (.ok [])
        ⟨[], [], [], "o".data, none⟩ =
      { source_paragraphs := []
        keywords := []
        checkboxes := []
        output := "o".data
        snack := some ("Podaj przynajmniej jedno słowo kluczowe".data) } :=
  ⟨(C7_validation_blocks ⟨[], [], [], "o".data, none⟩ ⟨" ".data, "cat".data, none⟩
      (.ok [])).1 (by decide) rfl,
    (C7_validation_blocks ⟨[], [], [], "o".data, none⟩ ⟨"http://a".data, "  ".data, none⟩
      (.ok [])).2 (Or.inl (by decide)) (by decide)⟩

/-! ## Small list helpers -/

theorem getLastD_mem : ∀ (l : Str) (d : Char), l ≠ [] → l.getLastD d ∈ l := by
  intro l
  induction l with
  | nil => intro d h; exact absurd rfl h
  | cons a l ih =>
    intro d _
    rw [List.getLastD_cons]
    cases l with
    | nil => simp [List.getLastD]
    | cons b l' => exact List.mem_cons_of_mem a (ih a (by simp))

theorem getLast?_eq_getLastD : ∀ (l : Str) (d : Char), l ≠ [] →
    l.getLast? = some (l.getLastD d) := by
  intro l
  induction l with
  | nil => intro d h; exact absurd rfl h
  | cons a l ih =>
    intro d _
    rw [List.getLastD_cons]
    cases l with
    | nil => simp [List.getLast?, List.getLastD]
    | cons b l' =>
      rw [List.getLast?_cons_cons, ih a (by simp)]

/-! ## Token decomposition facts -/

theorem tokenize_flatten : ∀ p : Str, ((tokenize p).map fun bt => bt.2).flatten = p := by
  intro p
  induction p with
  | nil => rfl
  | cons c rest ih =>
    rw [tokenize]
    cases htk : tokenize rest with
    | nil =>
      rw [htk] at ih
      simp at ih
      simp [ih]
    | cons bt ts =>
      rw [htk] at ih
      obtain ⟨b, t⟩ := bt
      by_cases hb : isWordChar c = b
      · simp only [hb, beq_self_eq_true, if_true]
        simp only [List.map_cons, List.flatten_cons] at ih ⊢
        simp [← List.append_assoc] at ih ⊢
        exact ih
      · have : (isWordChar c == b) = false := by
          cases hw : isWordChar c <;> cases hbb : b <;> simp_all
        simp only [this, Bool.false_eq_true, if_false]
        simp only [List.map_cons, List.flatten_cons] at ih ⊢
        simp [ih]

theorem all_wordness {t : Str} {b : Bool}
    (h : t.all (fun c => isWordChar c == b) = true) : ∀ c ∈ t, isWordChar c = b := by
  intro c hc
  have := List.all_eq_true.mp h c hc
  exact beq_iff_eq.mp this

theorem tokenize_alt_key : ∀ (p : Str) (prevB : Option Bool),
    (∀ b t ts, tokenize p = (b, t) :: ts → prevB ≠ some b) →
    altToks prevB (tokenize p) = true := by
  intro p
  induction p with
  | nil => intro prevB _; cases prevB <;> rfl
  | cons c rest ih =>
    intro prevB hpb
    have h0 : altToks none (tokenize rest) = true :=
      ih none (fun b t ts _ h => Option.noConfusion h)
    cases htk : tokenize rest with
    | nil =>
      have hres : tokenize (c :: rest) = [(isWordChar c, [c])] := by
        rw [tokenize, htk]
      rw [hres]
      cases prevB with
      | none => simp [altToks]
      | some pb =>
        have hne : pb ≠ isWordChar c := fun h => hpb _ _ _ hres (by rw [h])
        simp [altToks, hne]
    | cons bt ts =>
      obtain ⟨b, t⟩ := bt
      rw [htk] at h0
      simp only [altToks, Bool.and_eq_true] at h0
      obtain ⟨⟨⟨htne, hall⟩, -⟩, htail⟩ := h0
      by_cases hb : isWordChar c = b
      · have hres : tokenize (c :: rest) = (b, c :: t) :: ts := by
          rw [tokenize, htk]
          simp [hb]
        rw [hres]
        cases prevB with
        | none => simp [altToks, hall, htail, hb]
        | some pb =>
          have hne : pb ≠ b := fun h => hpb _ _ _ hres (by rw [h])
          simp [altToks, hall, htail, hb, hne]
      · have hbeq : (isWordChar c == b) = false := by
          cases hw : isWordChar c <;> cases hbb : b <;> simp_all
        have hres : tokenize (c :: rest) = (isWordChar c, [c]) :: (b, t) :: ts := by
          rw [tokenize, htk]
          simp [hbeq]
        rw [hres]
        cases prevB with
        | none => simp [altToks, htne, hall, htail, hb]
        | some pb =>
          have hne : pb ≠ isWordChar c := fun h => hpb _ _ _ hres (by rw [h])
          simp [altToks, htne, hall, htail, hb, hne]

theorem tokenize_alt (p : Str) : altToks none (tokenize p) = true :=
  tokenize_alt_key p none (fun b t ts _ h => Option.noConfusion h)

/-! ## Scanner lemmas for word-character keywords -/

theorem all_word_of_pyLower_eq : ∀ {a b : Str}, pyLower a = pyLower b →
    (∀ c ∈ b, isWordChar c = true) → ∀ c ∈ a, isWordChar c = true := by
  intro a
  induction a with
  | nil => intro b _ _ c hc; cases hc
  | cons x a' ih =>
    intro b hlow hb c hc
    cases b with
    | nil => simp [pyLower] at hlow
    | cons y b' =>
      simp only [pyLower, List.map_cons, List.cons.injEq] at hlow
      rcases List.mem_cons.mp hc with rfl | hc'
      · rw [isWordChar_of_toLow_eq hlow.1]
        exact hb y (List.mem_cons_self _ _)
      · exact ih hlow.2 (fun d hd => hb d (List.mem_cons_of_mem _ hd)) c hc'

theorem ciStartsWith_false_of_nonword {kw : Str} (hk : kw ≠ [])
    (hkw : ∀ c ∈ kw, isWordChar c = true) {c : Char} (hc : isWordChar c = false)
    (ts : Str) : ciStartsWith kw (c :: ts) = false := by
  cases kw with
  | nil => exact absurd rfl hk
  | cons k ks =>
    simp only [ciStartsWith, Bool.and_eq_false_iff]
    left
    cases hbeq : (toLow k == toLow c) with
    | false => rfl
    | true =>
      have := isWordChar_of_toLow_eq (beq_iff_eq.mp hbeq)
      rw [hkw k (List.mem_cons_self _ _)] at this
      rw [hc] at this
      cases this

theorem matchWordAt_false_of_prev_word {kw : Str} {text : Str} {prev : Option Char}
    (hp : isWordOpt prev = true) (ht : isWordOpt text.head? = true) :
    matchWordAt kw text prev = false := by
  simp only [matchWordAt, Bool.and_eq_false_iff]
  left; right
  rw [hp, ht]
  rfl

theorem subScan_gap {kw : Str} (hk : kw ≠ []) (hkw : ∀ c ∈ kw, isWordChar c = true) :
    ∀ (g : Str) (prev : Option Char) (z : Str), g ≠ [] →
      (∀ c ∈ g, isWordChar c = false) →
      subScan kw prev (g ++ z) = g ++ subScan kw (some (g.getLastD ' ')) z := by
  intro g
  induction g with
  | nil => intro prev z h _; exact absurd rfl h
  | cons c g' ih =>
    intro prev z _ hg
    have hc : isWordChar c = false := hg c (List.mem_cons_self _ _)
    have hnom : matchWordAt kw ((c :: g') ++ z) prev = false := by
      simp only [matchWordAt, Bool.and_eq_false_iff]
      left; left
      exact ciStartsWith_false_of_nonword hk hkw hc _
    rw [List.cons_append, subScan, dif_neg]
    · cases g' with
      | nil => simp [List.getLastD]
      | cons d g'' =>
        rw [ih (some c) z (by simp) (fun x hx => hg x (List.mem_cons_of_mem _ hx))]
        simp only [List.getLastD_cons]
        rfl
    · rintro ⟨-, hm⟩
      rw [List.cons_append] at hnom
      rw [hnom] at hm
      cases hm

theorem subScan_run_copy {kw : Str} :
    ∀ (w : Str) (prev : Option Char) (z : Str), w ≠ [] →
      (∀ c ∈ w, isWordChar c = true) →
      matchWordAt kw (w ++ z) prev = false →
      subScan kw prev (w ++ z) = w ++ subScan kw (some (w.getLastD ' ')) z := by
  intro w
  induction w with
  | nil => intro prev z h _ _; exact absurd rfl h
  | cons c w' ih =>
    intro prev z _ hw hnom
    rw [List.cons_append, subScan, dif_neg]
    · cases w' with
      | nil => simp [List.getLastD]
      | cons d w'' =>
        have hnom2 : matchWordAt kw ((d :: w'') ++ z) (some c) = false := by
          apply matchWordAt_false_of_prev_word
          · simp only [isWordOpt]
            exact hw c (List.mem_cons_self _ _)
          · simp only [List.cons_append, List.head?_cons, isWordOpt]
            exact hw d (List.mem_cons_of_mem _ (List.mem_cons_self _ _))
        rw [ih (some c) z (by simp) (fun x hx => hw x (List.mem_cons_of_mem _ hx)) hnom2]
        simp only [List.getLastD_cons]
        rfl
    · rintro ⟨-, hm⟩
      rw [List.cons_append] at hnom
      rw [hnom] at hm
      cases hm

theorem noMatchStart {kw : Str} (hk : kw ≠ []) (hkw : ∀ c ∈ kw, isWordChar c = true)
    {w z : Str} (hw : ∀ c ∈ w, isWordChar c = true)
    (hz : ∀ c, z.head? = some c → isWordChar c = false)
    (hne : pyLower w ≠ pyLower kw) (prev : Option Char) :
    matchWordAt kw (w ++ z) prev = false := by
  cases hm : matchWordAt kw (w ++ z) prev with
  | false => rfl
  | true =>
    exfalso
    rw [matchWordAt_iff hk] at hm
    obtain ⟨w', suf, heq, hlow, _, hb2⟩ := hm
    have hw' : ∀ c ∈ w', isWordChar c = true := all_word_of_pyLower_eq hlow hkw
    have hw'ne : w' ≠ [] := by
      intro h
      subst h
      simp [pyLower] at hlow
      exact hk (by
        cases kw with
        | nil => rfl
        | cons k ks => simp [pyLower] at hlow)
    rcases List.append_eq_append_iff.mp heq with ⟨m, hm1, hm2⟩ | ⟨m, hm1, hm2⟩
    · -- w' = w ++ m, z = m ++ suf
      cases m with
      | nil =>
        simp only [List.append_nil] at hm1
        exact hne (by rw [← hm1]; exact hlow)
      | cons mc ms =>
        have : isWordChar mc = false := hz mc (by rw [hm2]; rfl)
        have : isWordChar mc = true := hw' mc (by rw [hm1]; simp)
        simp_all
    · -- w = w' ++ m, suf = m ++ z
      cases m with
      | nil =>
        simp only [List.append_nil] at hm1
        exact hne (by rw [hm1]; exact hlow)
      | cons mc ms =>
        have hmc : isWordChar mc = true := hw mc (by rw [hm1]; simp)
        have hlast : isWordOpt w'.getLast? = true := by
          rw [getLast?_eq_getLastD w' ' ' hw'ne]
          simp only [isWordOpt]
          exact hw' _ (getLastD_mem w' ' ' hw'ne)
        have hhead : isWordOpt suf.head? = true := by
          rw [hm2]
          simp only [List.cons_append, List.head?_cons, isWordOpt]
          exact hmc
        rw [hlast, hhead] at hb2
        exact hb2 rfl

theorem subScan_run_wrap {kw : Str} (hk : kw ≠ []) (hkw : ∀ c ∈ kw, isWordChar c = true)
    {w : Str} (prev : Option Char) (z : Str)
    (hw : ∀ c ∈ w, isWordChar c = true) (hlow : pyLower w = pyLower kw)
    (hz : ∀ c, z.head? = some c → isWordChar c = false)
    (hprev : isWordOpt prev = false) :
    subScan kw prev (w ++ z) = '*' :: w ++ '*' :: subScan kw (some (w.getLastD ' ')) z := by
  have hwl : w.length = kw.length := by
    rw [← length_pyLower w, ← length_pyLower kw, hlow]
  have hwne : w ≠ [] := by
    intro h
    subst h
    simp at hwl
    exact hk (List.length_eq_zero.mp hwl.symm)
  have hmatch : matchWordAt kw (w ++ z) prev = true := by
    rw [matchWordAt_iff hk]
    refine ⟨w, z, rfl, hlow, ?_, ?_⟩
    · rw [hprev]
      cases w with
      | nil => exact absurd rfl hwne
      | cons c w' =>
        simp only [List.head?_cons, isWordOpt]
        rw [hw c (List.mem_cons_self _ _)]
        simp
    · rw [getLast?_eq_getLastD w ' ' hwne]
      simp only [isWordOpt]
      rw [hw _ (getLastD_mem w ' ' hwne)]
      cases hzh : z.head? with
      | none => simp [isWordOpt]
      | some c =>
        simp only [isWordOpt]
        rw [hz c hzh]
        simp
  cases w with
  | nil => exact absurd rfl hwne
  | cons c w' =>
    rw [List.cons_append, subScan, dif_pos ⟨hk, by rwa [List.cons_append] at hmatch⟩]
    have htake : (c :: w' ++ z).take kw.length = c :: w' := by
      rw [← hwl]
      exact List.take_left _ _
    have hdrop : (c :: w' ++ z).drop kw.length = z := by
      rw [← hwl]
      exact List.drop_left _ _
    rw [List.cons_append] at htake hdrop
    rw [htake, hdrop, getLast?_eq_getLastD _ ' ' (by simp)]

/-! ## The scanner agrees with token-level wrapping -/

theorem head_flatten_nonword {rest : List (Bool × Str)}
    (halt : altToks (some true) rest = true) :
    ∀ c, ((rest.map fun bt => bt.2).flatten).head? = some c → isWordChar c = false := by
  intro c hc
  cases rest with
  | nil => cases hc
  | cons bt ts =>
    obtain ⟨b, t⟩ := bt
    simp only [altToks, Bool.and_eq_true] at halt
    obtain ⟨⟨⟨htne, hall⟩, hchk⟩, -⟩ := halt
    cases b with
    | true => simp at hchk
    | false =>
      cases t with
      | nil => simp at htne
      | cons x t' =>
        simp only [List.map_cons, List.flatten_cons, List.cons_append, List.head?_cons,
          Option.some.injEq] at hc
        subst hc
        exact all_wordness hall _ (List.mem_cons_self _ _)

theorem subScan_tokens {kw : Str} (hk : kw ≠ []) (hkw : ∀ c ∈ kw, isWordChar c = true) :
    ∀ (toks : List (Bool × Str)) (prevB : Option Bool) (prev : Option Char),
      altToks prevB toks = true →
      (∀ t rest, toks = (true, t) :: rest → isWordOpt prev = false) →
      subScan kw prev ((toks.map fun bt => bt.2).flatten) =
        ((toks.map (wrapTok kw)).flatten) := by
  intro toks
  induction toks with
  | nil =>
    intro prevB prev _ _
    simp only [List.map_nil, List.flatten_nil]
    rw [subScan]
  | cons bt ts ih =>
    intro prevB prev halt hprev
    obtain ⟨b, t⟩ := bt
    simp only [altToks, Bool.and_eq_true] at halt
    obtain ⟨⟨⟨htne', hall⟩, _⟩, hts⟩ := halt
    have htne : t ≠ [] := by
      cases t
      · simp at htne'
      · simp
    have hvac : ∀ t2 rest2, ts = (true, t2) :: rest2 →
        isWordOpt (some (t.getLastD ' ')) = false → True := fun _ _ _ _ => trivial
    simp only [List.map_cons, List.flatten_cons]
    cases b with
    | false =>
      have hgap : ∀ c ∈ t, isWordChar c = false := all_wordness hall
      rw [subScan_gap hk hkw t prev _ htne hgap]
      rw [ih (some false) (some (t.getLastD ' ')) hts ?_]
      · simp [wrapTok]
      · intro t2 rest2 hts2
        simp only [isWordOpt]
        exact hgap _ (getLastD_mem t ' ' htne)
    | true =>
      have hword : ∀ c ∈ t, isWordChar c = true := all_wordness hall
      have hprev' : isWordOpt prev = false := hprev t ts rfl
      have hznw : ∀ c, ((ts.map fun bt => bt.2).flatten).head? = some c →
          isWordChar c = false := head_flatten_nonword hts
      have hvac' : ∀ t2 rest2, ts = (true, t2) :: rest2 →
          isWordOpt (some (t.getLastD ' ')) = false := by
        intro t2 rest2 hts2
        exfalso
        rw [hts2] at hts
        simp [altToks] at hts
      by_cases heq : pyLower t = pyLower kw
      · rw [subScan_run_wrap hk hkw prev _ hword heq hznw hprev']
        rw [ih (some true) (some (t.getLastD ' ')) hts hvac']
        simp only [wrapTok, heq, beq_self_eq_true, Bool.and_self, if_true]
        simp
      · have hnom := noMatchStart hk hkw hword hznw heq prev
        rw [subScan_run_copy t prev _ htne hword hnom]
        rw [ih (some true) (some (t.getLastD ' ')) hts hvac']
        have : wrapTok kw (true, t) = t := by
          simp only [wrapTok]
          have : (pyLower t == pyLower kw) = false := by
            cases hb : pyLower t == pyLower kw
            · rfl
            · exact absurd (beq_iff_eq.mp hb) heq
          simp [this]
        rw [this]

/-- C6 (amended): for a single non-empty keyword made of word characters,
`bold_keywords` wraps exactly the whole-word case-insensitive occurrences —
the maximal word-character runs equal to the keyword case-insensitively —
in emphasis markers and leaves every other character unchanged; with
overlapping keywords the substitutions apply sequentially and an occurrence
can be missed. -/
theorem C6_bold_wraps_whole_words (p kw : Str) (hk : kw ≠ [])
    (hkw : ∀ c ∈ kw, isWordChar c = true) :
    bold_keywords p [kw] = wrapWholeWords kw p := by
  have hke : kw.isEmpty = false := by
    cases kw
    · exact absurd rfl hk
    · rfl
  have h1 : bold_keywords p [kw] = subScan kw none p := by
    simp only [bold_keywords, List.foldl_cons, List.foldl_nil, hke, Bool.false_eq_true,
      if_false]
  rw [h1, wrapWholeWords]
  have h2 := tokenize_flatten p
  conv_lhs => rw [← h2]
  exact subScan_tokens hk hkw (tokenize p) none none (tokenize_alt p)
    (fun _ _ _ => rfl)

/-- Witness for C6 at the claim's scenario: keyword `climate`, paragraph
`Climate change affects agriculture.`; the theorem applies and the result
is `*Climate* change affects agriculture.` with one emphasis span. -/
theorem C6_bold_wraps_whole_words_witness :
    bold_keywords ("Climate change affects agriculture.".data) [("climate".data)] =
      "*Climate* change affects agriculture.".data :=
  (C6_bold_wraps_whole_words ("Climate change affects agriculture.".data)
    ("climate".data) (by decide) (by decide)).trans (by decide)

/-- C6 counterexample: with keywords `["cat", "cat dog"]` on the paragraph
`cat dog`, the whole paragraph is a whole-word occurrence of the keyword
`cat dog`, yet the output `*cat* dog` contains no emphasised copy of it:
not every whole-word occurrence of every keyword gets wrapped. -/
theorem C6_overlap_counterexample :
    OccursWholeWord ("cat dog".data) ("cat dog".data) ∧
    ¬∃ pre suf, bold_keywords ("cat dog".data) [("cat".data), ("cat dog".data)] =
      pre ++ '*' :: ("cat dog".data) ++ '*' :: suf := by
  have hb : bold_keywords ("cat dog".data) [("cat".data), ("cat dog".data)] =
      "*cat* dog".data := by
    simp [bold_keywords, subScan, matchWordAt, ciStartsWith, isWordOpt, isWordChar, toLow]
  constructor
  · exact ⟨[], "cat dog".data, [], by decide, by decide, by decide, by decide⟩
  · rintro ⟨pre, suf, h⟩
    rw [hb] at h
    have hlen := congrArg List.length h
    simp only [List.length_append, List.length_cons] at hlen
    have hpre : pre = [] := by
      rw [← List.length_eq_zero]
      simp at hlen
      omega
    have hsuf : suf = [] := by
      rw [← List.length_eq_zero]
      simp at hlen
      omega
    subst hpre; subst hsuf
    revert h
    decide

/-! ## Doubled-character predicates -/

theorem noDS_tail {a : Char} {l : Str} (h : noDS (a :: l) = true) : noDS l = true := by
  cases l with
  | nil => rfl
  | cons b l' =>
    rw [noDS.eq_1, Bool.and_eq_true] at h
    exact h.2

theorem noDS_cons_of {a : Char} {l : Str} (hl : noDS l = true)
    (hpair : a ≠ '*' ∨ l.head? ≠ some '*') : noDS (a :: l) = true := by
  cases l with
  | nil => rfl
  | cons b l' =>
    rw [noDS.eq_1, Bool.and_eq_true]
    refine ⟨?_, hl⟩
    rcases hpair with h | h
    · simp [h]
    · simp only [List.head?_cons, ne_eq, Option.some.injEq] at h
      simp [h]

theorem noDS_append {x y : Str} (hx : noDS x = true) (hy : noDS y = true)
    (hb : x.getLast? ≠ some '*' ∨ y.head? ≠ some '*') : noDS (x ++ y) = true := by
  induction x with
  | nil => simpa using hy
  | cons a x' ih =>
    cases x' with
    | nil =>
      rw [List.cons_append, List.nil_append]
      apply noDS_cons_of hy
      simpa using hb
    | cons b x'' =>
      rw [noDS.eq_1, Bool.and_eq_true] at hx
      have h1 : noDS (b :: x'' ++ y) = true := by
        apply ih hx.2
        rcases hb with h | h
        · left
          rwa [List.getLast?_cons_cons] at h
        · right; exact h
      rw [List.cons_append]
      apply noDS_cons_of h1
      have hx1 : (a == '*' && b == '*') = false := by
        have h0 := hx.1
        cases hval : (a == '*' && b == '*')
        · rfl
        · rw [hval] at h0; cases h0
      cases hab : (a == '*') with
      | false =>
        left
        intro ha
        rw [ha] at hab
        simp at hab
      | true =>
        right
        have hbb : (b == '*') = false := by
          rw [hab] at hx1
          simpa using hx1
        simp only [List.cons_append, List.head?_cons, ne_eq, Option.some.injEq]
        intro hb2
        rw [hb2] at hbb
        simp at hbb

theorem noDD_tail {a : Char} {l : Str} (h : noDD (a :: l) = true) : noDD l = true := by
  cases l with
  | nil => rfl
  | cons b l' =>
    rw [noDD.eq_1, Bool.and_eq_true] at h
    exact h.2

theorem noDD_cons_of {a : Char} {l : Str} (hl : noDD l = true)
    (hpair : a ≠ '\n' ∨ l.head? ≠ some '\n') : noDD (a :: l) = true := by
  cases l with
  | nil => rfl
  | cons b l' =>
    rw [noDD.eq_1, Bool.and_eq_true]
    refine ⟨?_, hl⟩
    rcases hpair with h | h
    · simp [h]
    · simp only [List.head?_cons, ne_eq, Option.some.injEq] at h
      simp [h]

theorem noDD_of_not_mem {x : Str} (h : '\n' ∉ x) : noDD x = true := by
  induction x with
  | nil => rfl
  | cons a x' ih =>
    apply noDD_cons_of (ih (fun hm => h (List.mem_cons_of_mem _ hm)))
    left
    intro ha
    exact h (ha ▸ List.mem_cons_self _ _)

theorem noDD_append {x y : Str} (hx : noDD x = true) (hy : noDD y = true)
    (hb : x.getLast? ≠ some '\n' ∨ y.head? ≠ some '\n') : noDD (x ++ y) = true := by
  induction x with
  | nil => simpa using hy
  | cons a x' ih =>
    cases x' with
    | nil =>
      rw [List.cons_append, List.nil_append]
      apply noDD_cons_of hy
      simpa using hb
    | cons b x'' =>
      rw [noDD.eq_1, Bool.and_eq_true] at hx
      have h1 : noDD (b :: x'' ++ y) = true := by
        apply ih hx.2
        rcases hb with h | h
        · left
          rwa [List.getLast?_cons_cons] at h
        · right; exact h
      rw [List.cons_append]
      apply noDD_cons_of h1
      have hx1 : (a == '\n' && b == '\n') = false := by
        have h0 := hx.1
        cases hval : (a == '\n' && b == '\n')
        · rfl
        · rw [hval] at h0; cases h0
      cases hab : (a == '\n') with
      | false =>
        left
        intro ha
        rw [ha] at hab
        simp at hab
      | true =>
        right
        have hbb : (b == '\n') = false := by
          rw [hab] at hx1
          simpa using hx1
        simp only [List.cons_append, List.head?_cons, ne_eq, Option.some.injEq]
        intro hb2
        rw [hb2] at hbb
        simp at hbb

/-! ## Scanner append lemmas for the exporter -/

theorem stripBold_append : ∀ (x y : Str), noDS (x ++ y.take 1) = true →
    stripBold (x ++ y) = x ++ stripBold y := by
  intro x
  induction x with
  | nil => intro y _; simp
  | cons a x' ih =>
    intro y h
    rw [List.cons_append] at h
    have hside : ∀ (r1 : Str), a = '*' → x' ++ y = '*' :: r1 → False := by
      intro r1 ha hxy
      subst ha
      cases x' with
      | nil =>
        simp only [List.nil_append] at hxy
        rw [List.nil_append, hxy] at h
        simp [noDS] at h
      | cons b x'' =>
        rw [List.cons_append] at hxy
        have hb : b = '*' := (List.cons.injEq _ _ _ _).mp hxy |>.1
        subst hb
        rw [List.cons_append, noDS.eq_1] at h
        simp at h
    rw [List.cons_append, stripBold.eq_3 a (x' ++ y) hside, ih y (noDS_tail h)]
    rfl

theorem findClose_spec : ∀ (h r : Str), '\n' ∉ h → noDS (h ++ ['*']) = true →
    ∃ pf, findClose (h ++ '*' :: '*' :: r) = some (h, ⟨r, pf⟩) := by
  intro h
  induction h with
  | nil =>
    intro r _ _
    rw [List.nil_append]
    exact ⟨by simp; omega, findClose.eq_1 r⟩
  | cons c h' ih =>
    intro r hnl hds
    rw [List.cons_append] at hds
    have hside1 : ∀ (r1 : Str), c = '*' → h' ++ '*' :: '*' :: r = '*' :: r1 → False := by
      intro r1 hc hh
      subst hc
      cases h' with
      | nil =>
        rw [List.nil_append] at hds
        simp [noDS] at hds
      | cons b h'' =>
        rw [List.cons_append] at hh
        have hb : b = '*' := (List.cons.injEq _ _ _ _).mp hh |>.1
        subst hb
        rw [List.cons_append, noDS.eq_1] at hds
        simp at hds
    have hside2 : c = '\n' → False := fun hc =>
      hnl (hc ▸ List.mem_cons_self _ _)
    obtain ⟨pf, hfc⟩ := ih r (fun hm => hnl (List.mem_cons_of_mem _ hm)) (noDS_tail hds)
    have heq := findClose.eq_3 c (h' ++ '*' :: '*' :: r) hside1 hside2
    rw [hfc] at heq
    rw [List.cons_append]
    exact ⟨_, heq⟩

theorem splitDD_append : ∀ (u v : Str), noDD (u ++ ['\n']) = true →
    splitDD (u ++ '\n' :: '\n' :: v) = u :: splitDD v := by
  intro u
  induction u with
  | nil => intro v _; rw [List.nil_append, splitDD.eq_2]
  | cons c u' ih =>
    intro v h
    rw [List.cons_append] at h
    have hside : ∀ (r1 : Str), c = '\n' → u' ++ '\n' :: '\n' :: v = '\n' :: r1 → False := by
      intro r1 hc hu
      subst hc
      cases u' with
      | nil =>
        rw [List.nil_append] at h
        simp [noDD] at h
      | cons b u'' =>
        rw [List.cons_append] at hu
        have hb : b = '\n' := (List.cons.injEq _ _ _ _).mp hu |>.1
        subst hb
        rw [List.cons_append, noDD.eq_1] at h
        simp at h
    rw [List.cons_append, splitDD.eq_3 c _ hside, ih v (noDD_tail h)]

theorem splitDD_no_dd : ∀ u : Str, noDD u = true → splitDD u = [u] := by
  intro u
  induction u with
  | nil => intro _; rfl
  | cons c u' ih =>
    intro h
    have hside : ∀ (r1 : Str), c = '\n' → u' = '\n' :: r1 → False := by
      intro r1 hc hu
      subst hc; subst hu
      rw [noDD.eq_1] at h
      simp at h
    rw [splitDD.eq_3 c u' hside, ih (noDD_tail h)]

/-! ## `pyStrip` lemmas -/

theorem dropWhile_eq_self_of_head {p : Char → Bool} {l : Str}
    (h : ∀ c, l.head? = some c → p c = false) : l.dropWhile p = l := by
  cases l with
  | nil => rfl
  | cons c l' => simp [List.dropWhile_cons, h c rfl]

theorem pyStrip_of_ends {l : Str} (hh : ∀ c, l.head? = some c → isPySpace c = false)
    (hl : ∀ c, l.getLast? = some c → isPySpace c = false) : pyStrip l = l := by
  unfold pyStrip
  rw [dropWhile_eq_self_of_head hh]
  rw [dropWhile_eq_self_of_head (by
    intro c hc
    rw [List.head?_reverse] at hc
    exact hl c hc)]
  exact List.reverse_reverse l

theorem pyStrip_length_le (l : Str) :
    (pyStrip l).length ≤ (l.dropWhile isPySpace).length := by
  unfold pyStrip
  have h1 : ((l.dropWhile isPySpace).reverse.dropWhile isPySpace).Sublist
      (l.dropWhile isPySpace).reverse := List.dropWhile_sublist _
  have := h1.length_le
  simp only [List.length_reverse] at this ⊢
  exact this

theorem pyStrip_self_head {l : Str} (h : pyStrip l = l) :
    ∀ c, l.head? = some c → isPySpace c = false := by
  intro c hc
  cases l with
  | nil => cases hc
  | cons a l' =>
    simp only [List.head?_cons, Option.some.injEq] at hc
    subst hc
    cases hsp : isPySpace a with
    | false => rfl
    | true =>
      exfalso
      have h1 : (a :: l').dropWhile isPySpace = l'.dropWhile isPySpace := by
        simp [List.dropWhile_cons, hsp]
      have h2 := pyStrip_length_le (a :: l')
      rw [h1] at h2
      have h3 : (l'.dropWhile isPySpace).Sublist l' := List.dropWhile_sublist _
      have h4 := h3.length_le
      rw [h] at h2
      simp at h2
      omega

theorem dropWhile_self_head {p : Char → Bool} {l : Str} (h : l.dropWhile p = l) :
    ∀ c, l.head? = some c → p c = false := by
  intro c hc
  cases l with
  | nil => cases hc
  | cons a l' =>
    simp only [List.head?_cons, Option.some.injEq] at hc
    subst hc
    cases hsp : p a with
    | false => rfl
    | true =>
      exfalso
      rw [List.dropWhile_cons, hsp] at h
      simp only [if_true] at h
      have h3 : (l'.dropWhile p).Sublist l' := List.dropWhile_sublist _
      have h4 := h3.length_le
      have h5 := congrArg List.length h
      simp at h5
      omega

theorem pyStrip_self_last {l : Str} (h : pyStrip l = l) :
    ∀ c, l.getLast? = some c → isPySpace c = false := by
  intro c hc
  have hdw : l.dropWhile isPySpace = l := by
    have hsub : (l.dropWhile isPySpace).Sublist l := List.dropWhile_sublist _
    have hlen1 := hsub.length_le
    have hlen2 := pyStrip_length_le l
    rw [h] at hlen2
    exact hsub.eq_of_length (by omega)
  have h2 : (l.reverse.dropWhile isPySpace).reverse = l := by
    unfold pyStrip at h
    rwa [hdw] at h
  have h3 : l.reverse.dropWhile isPySpace = l.reverse := by
    have := congrArg List.reverse h2
    simpa using this
  have h4 := dropWhile_self_head h3 c (by rwa [List.head?_reverse])
  exact h4

theorem pyStrip_append_newline {B : Str} (hB : pyStrip B = B) (hne : B ≠ []) :
    pyStrip (B ++ ['\n']) = B := by
  have hh := pyStrip_self_head hB
  have hl := pyStrip_self_last hB
  unfold pyStrip
  have h1 : (B ++ ['\n']).dropWhile isPySpace = B ++ ['\n'] := by
    apply dropWhile_eq_self_of_head
    intro c hc
    cases B with
    | nil => exact absurd rfl hne
    | cons a B' =>
      simp only [List.cons_append, List.head?_cons, Option.some.injEq] at hc
      subst hc
      exact hh a rfl
  rw [h1]
  have h2 : (B ++ ['\n']).reverse = '\n' :: B.reverse := by simp
  rw [h2]
  have h3 : ('\n' :: B.reverse).dropWhile isPySpace = B.reverse.dropWhile isPySpace := by
    simp [List.dropWhile_cons]
    intro hfalse
    simp [isPySpace] at hfalse
  rw [h3]
  have h4 : B.reverse.dropWhile isPySpace = B.reverse := by
    apply dropWhile_eq_self_of_head
    intro c hc
    rw [List.head?_reverse] at hc
    exact hl c hc
  rw [h4]
  exact List.reverse_reverse B

/-! ## The bold-stripping stage of the export -/

theorem noDD_append_newline {x : Str} (h : '\n' ∉ x) : noDD (x ++ ['\n']) = true := by
  induction x with
  | nil => rfl
  | cons a x' ih =>
    rw [List.cons_append]
    apply noDD_cons_of (ih (fun hm => h (List.mem_cons_of_mem _ hm)))
    left
    intro ha
    exact h (ha ▸ List.mem_cons_self _ _)

theorem entry_assoc (s B rest : Str) :
    ("**Źródło: ".data) ++ s ++ ("**\n\n".data) ++ B ++ ("\n".data) ++ rest =
      '*' :: '*' :: ((("Źródło: ".data) ++ s) ++
        '*' :: '*' :: ('\n' :: '\n' :: (B ++ '\n' :: rest))) := by
  have h1 : ("**Źródło: ".data) = '*' :: '*' :: ("Źródło: ".data) := rfl
  rw [h1]
  simp [List.append_assoc]

theorem stripBold_entry (s B rest : Str) (hs1 : '\n' ∉ s) (hs2 : noDS (s ++ ['*']) = true)
    (hB2 : noDS B = true) (hrest : rest.take 1 = [] ∨ rest.take 1 = ['\n']) :
    stripBold ('*' :: '*' :: ((("Źródło: ".data) ++ s) ++
        '*' :: '*' :: ('\n' :: '\n' :: (B ++ '\n' :: rest)))) =
      (("Źródło: ".data) ++ s) ++ '\n' :: '\n' :: (B ++ '\n' :: stripBold rest) := by
  have hHnl : '\n' ∉ ("Źródło: ".data) ++ s := by
    intro hm
    rcases List.mem_append.mp hm with hm | hm
    · revert hm; decide
    · exact hs1 hm
  have hHds : noDS ((("Źródło: ".data) ++ s) ++ ['*']) = true := by
    rw [List.append_assoc]
    apply noDS_append (by decide) hs2
    left
    decide
  obtain ⟨pf, hfc⟩ := findClose_spec (("Źródło: ".data) ++ s)
    ('\n' :: '\n' :: (B ++ '\n' :: rest)) hHnl hHds
  rw [stripBold.eq_2, hfc]
  show (("Źródło: ".data) ++ s) ++ stripBold ('\n' :: '\n' :: (B ++ '\n' :: rest)) = _
  have hR : ('\n' :: '\n' :: (B ++ '\n' :: rest)) =
      ('\n' :: '\n' :: (B ++ ['\n'])) ++ rest := by
    simp [List.append_assoc]
  rw [hR]
  have hx : noDS (('\n' :: '\n' :: (B ++ ['\n'])) ++ rest.take 1) = true := by
    rw [List.cons_append, List.cons_append]
    apply noDS_cons_of _ (Or.inl (by decide))
    apply noDS_cons_of _ (Or.inl (by decide))
    rw [List.append_assoc]
    apply noDS_append hB2
    · rcases hrest with h | h <;> rw [h] <;> decide
    · right
      rcases hrest with h | h <;> rw [h] <;> decide
  rw [stripBold_append _ _ hx]
  simp [List.append_assoc]

theorem build_take1 (e : Str × Str) (rest : List (Str × Str)) (kws : List Str) :
    (build_result_text_with_sources (e :: rest) kws).take 1 = ['*'] := by
  unfold build_result_text_with_sources
  rw [List.map_cons]
  cases hm : rest.map (fun sp => ("**Źródło: ".data) ++ sp.1 ++ ("**\n\n".data) ++
      bold_keywords sp.2 kws ++ ("\n".data)) with
  | nil => rfl
  | cons x xs => rfl

theorem stripBold_build : ∀ (sel : List (Str × Str)) (kws : List Str),
    (∀ e ∈ sel, GoodEntry kws e) →
    stripBold (build_result_text_with_sources sel kws) = cleanedShape sel kws := by
  intro sel
  induction sel with
  | nil =>
    intro kws _
    show stripBold [] = []
    rw [stripBold.eq_1]
  | cons e rest ih =>
    intro kws hgood
    obtain ⟨hs1, hs2, hs3, hb1, hb2, hb3, hb4⟩ := hgood e (List.mem_cons_self _ _)
    cases rest with
    | nil =>
      have hb : build_result_text_with_sources [e] kws =
          ("**Źródło: ".data) ++ e.1 ++ ("**\n\n".data) ++
            bold_keywords e.2 kws ++ ("\n".data) ++ [] := by
        simp [build_result_text_with_sources, joinSep]
      rw [hb, entry_assoc, stripBold_entry e.1 _ [] hs1 hs2 hb2 (Or.inl rfl)]
      simp [cleanedShape, joinSep, List.append_assoc, stripBold]
    | cons e2 rest2 =>
      have hb : build_result_text_with_sources (e :: e2 :: rest2) kws =
          ("**Źródło: ".data) ++ e.1 ++ ("**\n\n".data) ++ bold_keywords e.2 kws ++
            ("\n".data) ++
            (("\n---\n".data) ++ build_result_text_with_sources (e2 :: rest2) kws) := by
        simp [build_result_text_with_sources, joinSep, List.append_assoc]
      rw [hb, entry_assoc, stripBold_entry e.1 (bold_keywords e.2 kws)
        (("\n---\n".data) ++ build_result_text_with_sources (e2 :: rest2) kws)
        hs1 hs2 hb2 (Or.inr rfl)]
      have hsepstrip : stripBold (("\n---\n".data) ++
          build_result_text_with_sources (e2 :: rest2) kws) =
          ("\n---\n".data) ++ stripBold (build_result_text_with_sources (e2 :: rest2) kws) := by
        apply stripBold_append
        rw [build_take1]
        decide
      rw [hsepstrip, ih kws (fun x hx => hgood x (List.mem_cons_of_mem _ hx))]
      simp [cleanedShape, joinSep, List.append_assoc]

/-! ## The segmentation stage of the export -/

theorem keepStripped_eq_self {l : Str} (hh : ∀ c, l.head? = some c → isPySpace c = false)
    (hl : ∀ c, l.getLast? = some c → isPySpace c = false) (hne : l ≠ []) :
    keepStripped l = some l := by
  unfold keepStripped
  rw [pyStrip_of_ends hh hl]
  cases l with
  | nil => exact absurd rfl hne
  | cons a l' => rfl

theorem keepStripped_newline {B : Str} (hB : pyStrip B = B) (hne : B ≠ []) :
    keepStripped (B ++ ['\n']) = some B := by
  unfold keepStripped
  rw [pyStrip_append_newline hB hne]
  cases B with
  | nil => exact absurd rfl hne
  | cons a l' => rfl

theorem append_last_nonspace {x s : Str} (hend : endsNonSpace s = true) :
    ∀ c, (x ++ s).getLast? = some c → isPySpace c = false := by
  intro c hc
  unfold endsNonSpace at hend
  cases hgl : s.getLast? with
  | none => rw [hgl] at hend; cases hend
  | some d =>
    rw [hgl] at hend
    have hsne : s ≠ [] := by
      intro h
      subst h
      simp at hgl
    rw [List.getLast?_append_of_ne_nil x hsne, hgl] at hc
    cases hc
    simpa using hend

theorem keep_hdr {s : Str} (hend : endsNonSpace s = true) :
    keepStripped (("Źródło: ".data) ++ s) = some (("Źródło: ".data) ++ s) := by
  apply keepStripped_eq_self
  · intro c hc
    rw [show ((("Źródło: ".data) ++ s)).head? = some 'Ź' from rfl] at hc
    cases hc
    decide
  · exact append_last_nonspace hend
  · intro h
    cases h

theorem keep_sepHdr {s : Str} (hend : endsNonSpace s = true) :
    keepStripped (("---\nŹródło: ".data) ++ s) = some (("---\nŹródło: ".data) ++ s) := by
  apply keepStripped_eq_self
  · intro c hc
    rw [show ((("---\nŹródło: ".data) ++ s)).head? = some '-' from rfl] at hc
    cases hc
    decide
  · exact append_last_nonspace hend
  · intro h
    cases h

theorem noDD_hdr {s : Str} (h1 : '\n' ∉ s) :
    noDD (((("Źródło: ".data) ++ s)) ++ ['\n']) = true := by
  rw [List.append_assoc]
  exact noDD_append (by decide) (noDD_append_newline h1) (Or.inl (by decide))

theorem noDD_sepHdr {s : Str} (h1 : '\n' ∉ s) :
    noDD (((("---\nŹródło: ".data) ++ s)) ++ ['\n']) = true := by
  rw [List.append_assoc]
  exact noDD_append (by decide) (noDD_append_newline h1) (Or.inl (by decide))

theorem cleaned_cons_nil (e : Str × Str) (kws : List Str) :
    cleanedShape [e] kws =
      ((("Źródło: ".data) ++ e.1)) ++ '\n' :: '\n' :: (bold_keywords e.2 kws ++ ['\n']) := by
  simp [cleanedShape, joinSep, List.append_assoc]

theorem cleaned_cons_cons (e e2 : Str × Str) (rest2 : List (Str × Str)) (kws : List Str) :
    cleanedShape (e :: e2 :: rest2) kws =
      ((("Źródło: ".data) ++ e.1)) ++ '\n' :: '\n' ::
        (bold_keywords e.2 kws ++ '\n' :: '\n' ::
          (("---\n".data) ++ cleanedShape (e2 :: rest2) kws)) := by
  simp [cleanedShape, joinSep, List.append_assoc]

theorem sep_cleaned_nil (e : Str × Str) (kws : List Str) :
    ("---\n".data) ++ cleanedShape [e] kws =
      ((("---\nŹródło: ".data) ++ e.1)) ++ '\n' :: '\n' ::
        (bold_keywords e.2 kws ++ ['\n']) := by
  rw [cleaned_cons_nil]
  simp [List.append_assoc]

theorem sep_cleaned_cons (e e2 : Str × Str) (rest2 : List (Str × Str)) (kws : List Str) :
    ("---\n".data) ++ cleanedShape (e :: e2 :: rest2) kws =
      ((("---\nŹródło: ".data) ++ e.1)) ++ '\n' :: '\n' ::
        (bold_keywords e.2 kws ++ '\n' :: '\n' ::
          (("---\n".data) ++ cleanedShape (e2 :: rest2) kws)) := by
  rw [cleaned_cons_cons]
  simp [List.append_assoc]

theorem body_split (B tail : Str) (hb1 : '\n' ∉ B) :
    splitDD (B ++ '\n' :: '\n' :: tail) = B :: splitDD tail :=
  splitDD_append B tail (noDD_append_newline hb1)

theorem segProc_sep : ∀ (rest : List (Str × Str)) (kws : List Str),
    (∀ e ∈ rest, GoodEntry kws e) → rest ≠ [] →
    (splitDD (("---\n".data) ++ cleanedShape rest kws)).filterMap keepStripped =
      (rest.map fun e2 =>
        [("---\nŹródło: ".data) ++ e2.1, bold_keywords e2.2 kws]).flatten := by
  intro rest
  induction rest with
  | nil => intro kws _ h; exact absurd rfl h
  | cons e rest2 ih =>
    intro kws hgood _
    obtain ⟨hs1, hs2, hs3, hb1, hb2, hb3, hb4⟩ := hgood e (List.mem_cons_self _ _)
    cases rest2 with
    | nil =>
      rw [sep_cleaned_nil, splitDD_append _ _ (noDD_sepHdr hs1),
        splitDD_no_dd _ (noDD_append_newline hb1)]
      simp only [List.filterMap_cons, keep_sepHdr hs3, keepStripped_newline hb3 hb4]
      simp
    | cons e3 rest3 =>
      rw [sep_cleaned_cons, splitDD_append _ _ (noDD_sepHdr hs1), body_split _ _ hb1]
      simp only [List.filterMap_cons, keep_sepHdr hs3, keepStripped_eq_self
        (pyStrip_self_head hb3) (pyStrip_self_last hb3) hb4]
      rw [ih kws (fun x hx => hgood x (List.mem_cons_of_mem _ hx)) (by simp)]
      simp

theorem segProc_head : ∀ (sel : List (Str × Str)) (kws : List Str),
    (∀ e ∈ sel, GoodEntry kws e) →
    (splitDD (cleanedShape sel kws)).filterMap keepStripped = exportShape sel kws := by
  intro sel kws hgood
  cases sel with
  | nil => rfl
  | cons e rest =>
    obtain ⟨hs1, hs2, hs3, hb1, hb2, hb3, hb4⟩ := hgood e (List.mem_cons_self _ _)
    cases rest with
    | nil =>
      rw [cleaned_cons_nil, splitDD_append _ _ (noDD_hdr hs1),
        splitDD_no_dd _ (noDD_append_newline hb1)]
      simp only [List.filterMap_cons, keep_hdr hs3, keepStripped_newline hb3 hb4]
      simp [exportShape]
    | cons e2 rest2 =>
      rw [cleaned_cons_cons, splitDD_append _ _ (noDD_hdr hs1), body_split _ _ hb1]
      simp only [List.filterMap_cons, keep_hdr hs3, keepStripped_eq_self
        (pyStrip_self_head hb3) (pyStrip_self_last hb3) hb4]
      rw [segProc_sep (e2 :: rest2) kws
        (fun x hx => hgood x (List.mem_cons_of_mem _ hx)) (by simp)]
      simp [exportShape]

/-- C3 (amended): exporting a formatted result and re-reading the produced
document yields the input's segments with only the double-star bold markup
stripped: the first entry's header line (markers removed) and its
emphasized paragraph body, then for each later entry the separator glued to
its header line, and its emphasized body.  Single-star emphasis spans
around keywords are NOT stripped.  The hypotheses state the benign shape of
the formatted entries (labels without newlines, doubled stars or trailing
whitespace; bodies non-empty, stripped, without newlines or doubled
stars). -/
theorem C3_export_round_trip (sel : List (Str × Str)) (kws : List Str)
    (h : ∀ e ∈ sel, GoodEntry kws e) :
    save_as_docx (build_result_text_with_sources sel kws) = exportShape sel kws := by
  unfold save_as_docx
  rw [stripBold_build sel kws h]
  exact segProc_head sel kws h

/-- Witness for C3 at a concrete input: one source whose paragraph carries
an emphasis span; the exported document contains the bold-stripped header
and the paragraph with its single-star emphasis intact. -/
theorem C3_export_round_trip_witness :
    save_as_docx (build_result_text_with_sources
        [(("URL: x".data), ("*Climate* change affects agriculture.".data))] []) =
      exportShape [(("URL: x".data), ("*Climate* change affects agriculture.".data))] [] :=
  C3_export_round_trip _ [] (by
    intro e he
    rcases List.mem_singleton.mp he with rfl
    exact ⟨by decide, by decide, by decide, by decide, by decide, by decide, by decide⟩)

set_option maxHeartbeats 4000000 in
/-- C3 counterexample: for the formatted output of the claim's scenario
(keyword `climate`, one paragraph), the document written by the export
differs from the plain-text paragraphs demanded by the claim: the
single-star emphasis around `Climate` survives in the document. -/
theorem C3_emphasis_not_stripped_counterexample :
    save_as_docx (build_result_text_with_sources
        [(("URL: x".data), ("Climate change affects agriculture.".data))]
        [("climate".data)]) ≠
      specPlainParas (build_result_text_with_sources
        [(("URL: x".data), ("Climate change affects agriculture.".data))]
        [("climate".data)]) := by
  have h1 : save_as_docx (build_result_text_with_sources
      [(("URL: x".data), ("Climate change affects agriculture.".data))]
      [("climate".data)]) =
      [("Źródło: URL: x".data), ("*Climate* change affects agriculture.".data)] := by
    simp [save_as_docx, build_result_text_with_sources, joinSep, bold_keywords,
      subScan, matchWordAt, ciStartsWith, isWordOpt, isWordChar, toLow,
      stripBold, findClose, splitDD, keepStripped, pyStrip, isPySpace]
  have h2 : specPlainParas (build_result_text_with_sources
      [(("URL: x".data), ("Climate change affects agriculture.".data))]
      [("climate".data)]) =
      [("Źródło: URL: x".data), ("Climate change affects agriculture.".data)] := by
    simp [specPlainParas, build_result_text_with_sources, joinSep, bold_keywords,
      subScan, matchWordAt, ciStartsWith, isWordOpt, isWordChar, toLow,
      stripBold, findClose, stripEmph, findCloseS, splitDD, keepStripped,
      pyStrip, isPySpace]
  rw [h1, h2]
  decide

/-! ## C9: the PDF extraction pipeline -/

theorem extract_foldl (pages : List Str) : ∀ acc : List Str,
    pages.foldl (fun paragraphs t => paragraphs ++ processPage t) acc =
      acc ++ (pages.map processPage).flatten := by
  induction pages with
  | nil => intro acc; simp
  | cons p rest ih =>
    intro acc
    simp only [List.foldl_cons, List.map_cons, List.flatten_cons]
    rw [ih]
    simp [List.append_assoc]

theorem hasHyphNL_tail {c : Char} {x : Str} (h : hasHyphNL (c :: x) = false) :
    hasHyphNL x = false := by
  cases x with
  | nil => rfl
  | cons d x' =>
    by_cases hcd : c = '-' ∧ d = '\n'
    · obtain ⟨rfl, rfl⟩ := hcd
      rw [hasHyphNL.eq_1] at h
      exact absurd h (by decide)
    · have heq : hasHyphNL (c :: d :: x') = hasHyphNL (d :: x') := by
        apply hasHyphNL.eq_2
        intro r1 hc hd
        exact hcd ⟨hc, ((List.cons.injEq _ _ _ _).mp hd).1⟩
      rwa [heq] at h

theorem subHyph_append : ∀ (x y : Str), hasHyphNL x = false →
    subHyph (x ++ '-' :: '\n' :: y) = x ++ subHyph y := by
  intro x
  induction x with
  | nil =>
    intro y _
    have h1 : subHyph ('-' :: '\n' :: y) = subHyph y := subHyph.eq_1 y
    simpa using h1
  | cons c x' ih =>
    intro y h
    have hside : ∀ (r1 : Str), c = '-' → x' ++ '-' :: '\n' :: y = '\n' :: r1 → False := by
      intro r1 hc hx
      subst hc
      cases x' with
      | nil =>
        rw [List.nil_append] at hx
        exact absurd ((List.cons.injEq _ _ _ _).mp hx).1 (by decide)
      | cons d x'' =>
        rw [List.cons_append] at hx
        have hd : d = '\n' := ((List.cons.injEq _ _ _ _).mp hx).1
        subst hd
        rw [hasHyphNL.eq_1] at h
        exact absurd h (by decide)
    rw [List.cons_append, subHyph.eq_2 c _ hside, ih y (hasHyphNL_tail h)]
    rfl

theorem subNL_no_newline : ∀ t : Str, '\n' ∉ subNL t := by
  intro t
  induction t using subNL.induct with
  | case1 => simp [subNL]
  | case2 c rest hc ih =>
    rw [subNL.eq_2, if_pos hc]
    intro hm
    rcases List.mem_cons.mp hm with h | h
    · cases h
    · exact ih h
  | case3 c rest hc ih =>
    rw [subNL.eq_2, if_neg hc]
    intro hm
    rcases List.mem_cons.mp hm with h | h
    · subst h
      simp at hc
    · exact ih h

theorem subWS_mem : ∀ (t : Str) (c : Char), c ∈ subWS t → c = ' ' ∨ c ∈ t := by
  intro t
  induction t using subWS.induct with
  | case1 =>
    intro c hc
    rw [subWS.eq_1] at hc
    cases hc
  | case2 c rest hc ih =>
    intro d hd
    rw [subWS.eq_2, if_pos hc] at hd
    rcases List.mem_cons.mp hd with h | h
    · exact Or.inl h
    · rcases ih d h with h | h
      · exact Or.inl h
      · exact Or.inr (List.mem_cons_of_mem _ ((List.dropWhile_sublist _).mem h))
  | case3 c rest hc ih =>
    intro d hd
    rw [subWS.eq_2, if_neg hc] at hd
    rcases List.mem_cons.mp hd with h | h
    · exact Or.inr (h ▸ List.mem_cons_self _ _)
    · rcases ih d h with h | h
      · exact Or.inl h
      · exact Or.inr (List.mem_cons_of_mem _ h)

theorem cleanPage_no_newline (t : Str) : '\n' ∉ cleanPageText t := by
  intro hm
  rcases subWS_mem _ _ hm with h | h
  · cases h
  · exact subNL_no_newline _ h

theorem head_dropWhile_false (p : Char → Bool) : ∀ (l : Str) (c : Char),
    (l.dropWhile p).head? = some c → p c = false := by
  intro l
  induction l with
  | nil => intro c hc; cases hc
  | cons a l' ih =>
    intro c hc
    rw [List.dropWhile_cons] at hc
    by_cases hp : p a = true
    · rw [if_pos hp] at hc
      exact ih c hc
    · rw [if_neg hp] at hc
      injection hc with h1
      subst h1
      exact Bool.not_eq_true _ ▸ (Bool.of_not_eq_true hp)

theorem subWS_head_nonspace : ∀ z : Str,
    (∀ c, z.head? = some c → isPySpace c = false) →
    ∀ c, (subWS z).head? = some c → isPySpace c = false := by
  intro z hz c hc
  cases z with
  | nil => rw [subWS.eq_1] at hc; cases hc
  | cons a r =>
    have ha : isPySpace a = false := hz a rfl
    rw [subWS.eq_2, if_neg (by simp [ha])] at hc
    injection hc with h1
    subst h1
    exact ha

theorem noDoubleWS_cons_of {a : Char} {l : Str} (hl : noDoubleWS l = true)
    (h : isPySpace a = false ∨ ∀ d, l.head? = some d → isPySpace d = false) :
    noDoubleWS (a :: l) = true := by
  cases l with
  | nil => rfl
  | cons b l' =>
    rw [noDoubleWS.eq_1, Bool.and_eq_true]
    refine ⟨?_, hl⟩
    rcases h with h | h
    · simp [h]
    · simp [h b rfl]

theorem subWS_noDoubleWS : ∀ z : Str, noDoubleWS (subWS z) = true := by
  intro z
  induction z using subWS.induct with
  | case1 => rw [subWS.eq_1]; rfl
  | case2 c rest hc ih =>
    rw [subWS.eq_2, if_pos hc]
    apply noDoubleWS_cons_of ih
    right
    exact subWS_head_nonspace _ (head_dropWhile_false isPySpace rest)
  | case3 c rest hc ih =>
    rw [subWS.eq_2, if_neg hc]
    rcases Bool.and_eq_false_iff.mp (by simpa using hc) with h | h
    · exact noDoubleWS_cons_of ih (Or.inl h)
    · apply noDoubleWS_cons_of ih
      right
      apply subWS_head_nonspace
      intro d hd
      cases rest with
      | nil => cases hd
      | cons e r' =>
        injection hd with h1
        subst h1
        simpa [headIsWS] using h

theorem cleanPage_noDoubleWS (t : Str) : noDoubleWS (cleanPageText t) = true :=
  subWS_noDoubleWS _

theorem noSplitPair_tail {a : Char} {l : Str} (h : noSplitPair (a :: l) = true) :
    noSplitPair l = true := by
  cases l with
  | nil => rfl
  | cons b l' =>
    rw [noSplitPair.eq_1, Bool.and_eq_true] at h
    exact h.2

theorem noSplitPair_suffix : ∀ (x y : Str), noSplitPair (x ++ y) = true →
    noSplitPair y = true := by
  intro x
  induction x with
  | nil => intro y h; exact h
  | cons a x' ih =>
    intro y h
    exact ih y (noSplitPair_tail h)

theorem noSplitPair_prefix_aux : ∀ (x y : Str), noSplitPair (x ++ y) = true →
    noSplitPair x = true := by
  intro x
  induction x with
  | nil => intro y _; rfl
  | cons a x' ih =>
    intro y h
    cases x' with
    | nil => rfl
    | cons b x'' =>
      have h' : noSplitPair (a :: b :: (x'' ++ y)) = true := h
      rw [noSplitPair.eq_1, Bool.and_eq_true] at h'
      rw [noSplitPair.eq_1, Bool.and_eq_true]
      exact ⟨h'.1, ih y h'.2⟩

theorem noSplitPair_of_within {u v : Str} (h : u <:+: v) (hv : noSplitPair v = true) :
    noSplitPair u = true := by
  obtain ⟨s, t, rfl⟩ := h
  rw [List.append_assoc] at hv
  exact noSplitPair_prefix_aux u t (noSplitPair_suffix s _ hv)

theorem pyStrip_within (l : Str) : pyStrip l <:+: l := by
  unfold pyStrip
  have h1 : (l.dropWhile isPySpace) <:+ l := List.dropWhile_suffix _
  have h2 : ((l.dropWhile isPySpace).reverse.dropWhile isPySpace) <:+
      (l.dropWhile isPySpace).reverse := List.dropWhile_suffix _
  have h3 : ((l.dropWhile isPySpace).reverse.dropWhile isPySpace).reverse <+:
      (l.dropWhile isPySpace) := by
    obtain ⟨p, hp⟩ := h2
    refine ⟨p.reverse, ?_⟩
    rw [← List.reverse_append, hp, List.reverse_reverse]
  exact h3.isInfix.trans h1.isInfix

theorem splitSentAux_ne_nil (prev : Option Char) (l : Str) :
    splitSentAux prev l ≠ [] := by
  cases l with
  | nil => rw [splitSentAux.eq_1]; simp
  | cons c rest =>
    rw [splitSentAux.eq_2]
    by_cases hc : (isPySpace c && prevIsSentEnd prev) = true
    · rw [if_pos hc]; simp
    · rw [if_neg hc]
      cases splitSentAux (some c) rest with
      | nil => simp
      | cons u us => simp

theorem splitSentAux_head_unit (prev : Option Char) (l : Str) :
    ∃ u us, splitSentAux prev l = u :: us ∧
      (u = [] ∨ ∃ d r u', l = d :: r ∧ u = d :: u' ∧
        (isPySpace d && prevIsSentEnd prev) = false) := by
  cases l with
  | nil => exact ⟨[], [], by rw [splitSentAux.eq_1], Or.inl rfl⟩
  | cons c rest =>
    by_cases hc : (isPySpace c && prevIsSentEnd prev) = true
    · have heq : splitSentAux prev (c :: rest) =
          [] :: splitSentAux (some ((rest.takeWhile isPySpace).getLastD c))
            (rest.dropWhile isPySpace) := by
        rw [splitSentAux.eq_2, if_pos hc]
      exact ⟨[], _, heq, Or.inl rfl⟩
    · cases hrec : splitSentAux (some c) rest with
      | nil => exact absurd hrec (splitSentAux_ne_nil _ _)
      | cons u0 us0 =>
        refine ⟨c :: u0, us0, ?_, Or.inr ⟨c, rest, u0, rfl, rfl, by simpa using hc⟩⟩
        rw [splitSentAux.eq_2, if_neg hc, hrec]

theorem splitSentAux_units : ∀ (prev : Option Char) (l : Str),
    ∀ u ∈ splitSentAux prev l, noSplitPair u = true := by
  intro prev l
  induction prev, l using splitSentAux.induct with
  | case1 prev =>
    intro u hu
    rw [splitSentAux.eq_1] at hu
    rcases List.mem_singleton.mp hu with rfl
    rfl
  | case2 prev c rest hc ih =>
    intro u hu
    rw [splitSentAux.eq_2, if_pos hc] at hu
    rcases List.mem_cons.mp hu with rfl | hu2
    · rfl
    · exact ih u hu2
  | case3 prev c rest hc s ss hmatch ih =>
    intro u hu
    obtain ⟨u0, us0, heq, hhead⟩ := splitSentAux_head_unit (some c) rest
    rw [splitSentAux.eq_2, if_neg hc, heq] at hu
    rcases List.mem_cons.mp hu with rfl | hu2
    · rcases hhead with rfl | ⟨d, r, u', hrest, rfl, hcond⟩
      · rfl
      · rw [noSplitPair.eq_1, Bool.and_eq_true]
        constructor
        · have hdc : (isPySpace d && isSentEnd c) = false := by
            simpa [prevIsSentEnd] using hcond
          cases h1 : isSentEnd c <;> cases h2 : isPySpace d <;> simp_all
        · exact ih _ (by rw [heq]; exact List.mem_cons_self _ _)
    · exact ih u (by rw [heq]; exact List.mem_cons_of_mem _ hu2)
  | case4 prev c rest hc hnil ih =>
    exact absurd hnil (splitSentAux_ne_nil _ _)

/-- C9: the PDF pipeline processes pages in order (the result is the
concatenation of the per-page units), deleting a hyphen immediately before
a line break joins the word halves, the cleaned page text contains no line
break and no two adjacent whitespace characters (runs are collapsed to
single spaces), and every produced unit is non-empty and contains no
interior sentence-split point (whitespace preceded by `.`, `!` or `?`). -/
theorem C9_pdf_pipeline (pages : List Str) (x y t : Str) :
    extract_text_from_pdf_bytes pages = (pages.map processPage).flatten ∧
    (hasHyphNL x = false → subHyph (x ++ '-' :: '\n' :: y) = x ++ subHyph y) ∧
    '\n' ∉ cleanPageText t ∧
    noDoubleWS (cleanPageText t) = true ∧
    (∀ u ∈ processPage t, u ≠ [] ∧ noSplitPair u = true) := by
  refine ⟨?_, fun h => subHyph_append x y h, cleanPage_no_newline t,
    cleanPage_noDoubleWS t, ?_⟩
  · unfold extract_text_from_pdf_bytes
    rw [extract_foldl]
    simp
  · intro u hu
    unfold processPage at hu
    rw [List.mem_filter] at hu
    obtain ⟨hmem, hne⟩ := hu
    constructor
    · intro hnil
      subst hnil
      simp at hne
    · rw [List.mem_map] at hmem
      obtain ⟨v, hv, rfl⟩ := hmem
      exact noSplitPair_of_within (pyStrip_within v) (splitSentAux_units none _ v hv)

set_option maxHeartbeats 2000000 in
/-- Witness for C9 at a concrete input: one page with a wrapped hyphenation,
a sentence break and a doubled space. -/
theorem C9_pdf_pipeline_witness :
    extract_text_from_pdf_bytes [("The cat-\nnap is fine. It  works!".data)] =
      (([("The cat-\nnap is fine. It  works!".data)]).map processPage).flatten ∧
    subHyph (("word".data) ++ '-' :: '\n' :: ("break done.".data)) =
      ("word".data) ++ subHyph ("break done.".data) ∧
    '\n' ∉ cleanPageText ("The cat-\nnap is fine. It  works!".data) ∧
    noDoubleWS (cleanPageText ("The cat-\nnap is fine. It  works!".data)) = true ∧
    (("The catnap is fine.".data) ≠ [] ∧
      noSplitPair ("The catnap is fine.".data) = true) := by
  have h := C9_pdf_pipeline [("The cat-\nnap is fine. It  works!".data)]
    ("word".data) ("break done.".data) ("The cat-\nnap is fine. It  works!".data)
  refine ⟨h.1, h.2.1 (by decide), h.2.2.1, h.2.2.2.1, h.2.2.2.2 _ ?_⟩
  simp [processPage, cleanPageText, subHyph, subNL, subWS, splitSentAux,
    pyStrip, isPySpace, isSentEnd, prevIsSentEnd, headIsWS]

end KeywordExtractor
